import Mathlib

/-!
Verification of the Cotamer coroutine runtime (pset2).

This file gives a shallow embedding of the Cotamer core — event bodies with
their listener small-vector, the quorum combinator, the task promise interest
machinery, and the driver (clock, ready/asap queues, d-ary timer heap) — and
proves or refutes the frozen specification claims about them.

Conventions:
* Machine pointers tagged with a low quorum bit become the `Listener`
  inductive (`coro h` for a coroutine handle, `quorum q` for a quorum
  parent pointer).
* `small_vector<T, N>` becomes `SmallVec`: the capacity field and the element
  list are modelled separately, exactly as in the source, because the event
  representation uses capacity zero (and only capacity zero) to mean
  "triggered".
* `std::chrono` time points and durations become `Int` (a tick counter).
* Coroutine handles become `Nat` identifiers; resuming a coroutine is given
  to the driver model as an arbitrary state-transforming parameter.
-/

namespace Cotamer

/-- A listener entry of an event body: either a plain coroutine handle or a
quorum parent, distinguished in the source by the low tag bit `t_quorum`
(src/pset2/cotamer.hh, `event_body::trigger`). -/
inductive Listener where
  | coro (h : Nat)
  | quorum (q : Nat)
deriving DecidableEq, Repr

/-- Model of `small_vector<T, N>` (src/pset2/small_vector.hh): a capacity
field plus the stored elements. A fresh vector has `cap = N` and no
elements; `clear_capacity` resets both to zero. The heap/inline distinction
of the source is memory layout only and is not observable here. -/
structure SmallVec (α : Type) where
  cap : Nat
  elems : List α
deriving Repr, DecidableEq

namespace SmallVec

/-- A fresh `small_vector<T, N>`: `sz_ = 0`, `cap_ = N`. -/
def fresh (α : Type) (N : Nat) : SmallVec α := ⟨N, []⟩

/-- `small_vector::empty()`: no stored elements. -/
def isEmpty (sv : SmallVec α) : Bool := sv.elems.isEmpty

/-- `small_vector::empty_capacity()`: capacity is zero. -/
def emptyCapacity (sv : SmallVec α) : Bool := sv.cap == 0

/-- `small_vector::clear_capacity()`: drop all elements and the capacity. -/
def clearCapacity (_sv : SmallVec α) : SmallVec α := ⟨0, []⟩

/-- `small_vector::push_back` by way of `push_space`: a zero capacity is
first restored to `N`, a full vector doubles its capacity, then the element
is appended. -/
def pushBack (N : Nat) (v : α) (sv : SmallVec α) : SmallVec α :=
  let cap1 := if sv.cap = 0 then N else sv.cap
  let cap2 := if sv.elems.length < cap1 then cap1 else cap1 * 2
  ⟨cap2, sv.elems ++ [v]⟩

end SmallVec

/-- The loop body of `event_body::remove` (src/pset2/cotamer.hh:268-277):
scan from index `i`; a match is overwritten with the back element and the
back is popped, without advancing; otherwise advance. This is the
swap-with-back removal of all occurrences. -/
def removeScan [DecidableEq α] (vx : α) (v : List α) (i : Nat) : List α :=
  if h : i < v.length then
    if v.get ⟨i, h⟩ = vx then
      removeScan vx ((v.set i (v.getLastD vx)).dropLast) i
    else
      removeScan vx v (i + 1)
  else
    v
termination_by v.length - i
decreasing_by
  all_goals first
    | (simp only [List.length_dropLast, List.length_set]; omega)
    | omega

/-- The listener small-vector of an event body has inline capacity 3
(`small_vector<uintptr_t, 3> vs_`). -/
def listenerCap : Nat := 3

/-- Model of `event_body` (src/pset2/cotamer.hh:240-282): flag word and the
listener vector. The reference count is ownership bookkeeping with no
bearing on the claims proved here and is omitted. -/
structure EventBody where
  flags : Nat
  vs : SmallVec Listener
deriving Repr, DecidableEq

namespace EventBody

/-- A fresh event body: `event_body(uint32_t flags = 0)` with a fresh
listener vector. -/
def fresh (flags : Nat := 0) : EventBody := ⟨flags, SmallVec.fresh Listener listenerCap⟩

/-- `event_body::empty()`: the listener vector holds no elements. -/
def isEmpty (b : EventBody) : Bool := b.vs.isEmpty

/-- `event_body::triggered()`: the listener vector has zero capacity. -/
def triggered (b : EventBody) : Bool := b.vs.emptyCapacity

/-- `event_body::add`: append a listener. The source asserts
`!triggered()`; the assertion is carried as a hypothesis by the theorems
that use this operation. -/
def add (l : Listener) (b : EventBody) : EventBody :=
  { b with vs := b.vs.pushBack listenerCap l }

/-- `event_body::remove`: swap-with-back removal of all occurrences. The
capacity is unchanged (`pop_back` only decrements the size). -/
def remove (l : Listener) (b : EventBody) : EventBody :=
  { b with vs := ⟨b.vs.cap, removeScan l b.vs.elems 0⟩ }

/-- The coroutine handles of a listener list, in order. -/
def corosOf (ls : List Listener) : List Nat :=
  ls.filterMap fun l => match l with | .coro h => some h | .quorum _ => none

/-- The quorum parents of a listener list, in order. -/
def quorumsOf (ls : List Listener) : List Nat :=
  ls.filterMap fun l => match l with | .coro _ => none | .quorum q => some q

/-- `event_body::trigger` (src/pset2/cotamer.hh:588-601): one walk over the
listeners pushes coroutine handles onto the driver's ready queue in order
and collects quorum parents into a local buffer; then the capacity is
cleared (the body becomes triggered); only then are the quorum parents
notified. The function returns the new body, the new ready queue, and the
ordered list of quorum parents handed to `mark_trigger`. -/
def trigger (b : EventBody) (ready : List Nat) :
    EventBody × List Nat × List Nat :=
  ({ b with vs := b.vs.clearCapacity },
   ready ++ corosOf b.vs.elems,
   quorumsOf b.vs.elems)

end EventBody

/-- The operations a client can perform directly on one event body. -/
inductive EOp where
  | add (l : Listener)
  | remove (l : Listener)
  | trigger
deriving DecidableEq, Repr

/-- Apply one operation to an event body (the ready-queue effect of
`trigger` is irrelevant to per-body state and dropped here). -/
def applyEOp (op : EOp) (b : EventBody) : EventBody :=
  match op with
  | .add l => b.add l
  | .remove l => b.remove l
  | .trigger => (b.trigger []).1

/-- Run a list of operations in order. -/
def runEOps (ops : List EOp) (b : EventBody) : EventBody :=
  ops.foldl (fun s op => applyEOp op s) b

/-- An operation sequence is valid from `b` when every `add` happens on an
untriggered body — the `assert(vx && !triggered())` of `event_body::add`. -/
def ValidEOps (b : EventBody) : List EOp → Prop
  | [] => True
  | op :: rest =>
      (match op with
       | .add _ => ¬ b.triggered = true
       | _ => True) ∧ ValidEOps (applyEOp op b) rest

def validEOpsDec (b : EventBody) : (ops : List EOp) → Decidable (ValidEOps b ops)
  | [] => .isTrue trivial
  | op :: rest =>
    have h1 : Decidable (match op with
        | .add _ => ¬ b.triggered = true
        | _ => True) := by cases op <;> infer_instance
    have h2 : Decidable (ValidEOps (applyEOp op b) rest) := validEOpsDec _ rest
    instDecidableAnd

instance (b : EventBody) (ops : List EOp) : Decidable (ValidEOps b ops) :=
  validEOpsDec b ops

/-- The registration order of listeners after a sequence of operations:
`add` appends, `remove` deletes all occurrences keeping the order of the
survivors. This is the specification-side order (the spec's words), to be
compared with the swap-with-back implementation. -/
def regOrder (ops : List EOp) : List Listener :=
  ops.foldl
    (fun acc op =>
      match op with
      | .add l => acc ++ [l]
      | .remove l => acc.filter (fun x => x ≠ l)
      | .trigger => acc)
    []

theorem count_notmem_zero [DecidableEq α] (vx : α) (v : List α)
    (hpre : ∀ (j : Nat) (hj : j < v.length), v.get ⟨j, hj⟩ ≠ vx) :
    v.count vx = 0 := by
  rw [List.count_eq_zero]
  intro hmem
  obtain ⟨⟨j, hj⟩, hget⟩ := List.mem_iff_get.mp hmem
  exact hpre j hj hget

theorem removeScan_count [DecidableEq α] (vx a : α) :
    ∀ (n : Nat) (v : List α) (i : Nat), v.length - i ≤ n →
    (∀ (j : Nat) (hj : j < v.length), j < i → v.get ⟨j, hj⟩ ≠ vx) →
    (removeScan vx v i).count a = if a = vx then 0 else v.count a := by
  intro n
  induction n with
  | zero =>
    intro v i hn hpre
    rw [removeScan]
    have hge : ¬ i < v.length := by omega
    rw [dif_neg hge]
    have hcnt : v.count vx = 0 :=
      count_notmem_zero vx v (fun j hj => hpre j hj (by omega))
    by_cases ha : a = vx
    · simp [ha, hcnt]
    · simp [ha]
  | succ n ih =>
    intro v i hn hpre
    rw [removeScan]
    by_cases hlt : i < v.length
    · rw [dif_pos hlt]
      by_cases hv : v.get ⟨i, hlt⟩ = vx
      · rw [if_pos hv]
        have hne : v ≠ [] := List.ne_nil_of_length_pos (by omega)
        have hLlast : v.getLastD vx = v.getLast hne := by
          rw [List.getLastD_eq_getLast?, List.getLast?_eq_getLast v hne]
          rfl
        have hvdecomp : v.dropLast ++ [v.getLast hne] = v :=
          List.dropLast_append_getLast hne
        have hdll : v.dropLast.length = v.length - 1 := List.length_dropLast v
        have hcv : ∀ b : α, v.count b
            = v.dropLast.count b + (if v.getLast hne = b then 1 else 0) := by
          intro b
          conv_lhs => rw [← hvdecomp]
          simp [List.count_append, List.count_singleton, beq_iff_eq]
        by_cases hi : i = v.length - 1
        · -- removing the back element itself: the swap is a no-op, the
          -- result is just dropLast
          have hw : (v.set i (v.getLastD vx)).dropLast = v.dropLast := by
            apply List.ext_getElem
            · simp
            · intro j h1 h2
              rw [List.getElem_dropLast, List.getElem_set,
                List.getElem_dropLast]
              rw [if_neg]
              simp only [List.length_dropLast, List.length_set] at h1
              omega
          rw [hw]
          have hlastvx : v.getLast hne = vx := by
            rw [List.getLast_eq_getElem]
            subst hi
            simpa using hv
          have hpre2 : ∀ (j : Nat) (hj : j < v.dropLast.length), j < i →
              v.dropLast.get ⟨j, hj⟩ ≠ vx := by
            intro j hj hji
            simp only [List.get_eq_getElem]
            rw [List.getElem_dropLast]
            exact hpre j (by omega) hji
          rw [ih v.dropLast i (by omega) hpre2]
          by_cases ha : a = vx
          · simp [ha]
          · rw [if_neg ha, if_neg ha]
            have := hcv a
            rw [hlastvx, if_neg (fun h => ha h.symm)] at this
            omega
        · -- swapping the back element into slot i
          have hw : (v.set i (v.getLastD vx)).dropLast
              = v.dropLast.set i (v.getLastD vx) := by
            apply List.ext_getElem
            · simp
            · intro j h1 h2
              simp only [List.length_dropLast, List.length_set] at h1
              rw [List.getElem_dropLast, List.getElem_set, List.getElem_set]
              by_cases hji : i = j
              · rw [if_pos hji, if_pos hji]
              · rw [if_neg hji, if_neg hji, List.getElem_dropLast]
          rw [hw]
          have hidl : i < v.dropLast.length := by omega
          have hpre2 : ∀ (j : Nat)
              (hj : j < (v.dropLast.set i (v.getLastD vx)).length), j < i →
              (v.dropLast.set i (v.getLastD vx)).get ⟨j, hj⟩ ≠ vx := by
            intro j hj hji
            simp only [List.get_eq_getElem]
            rw [List.getElem_set, if_neg (by omega), List.getElem_dropLast]
            exact hpre j (by omega) hji
          rw [ih (v.dropLast.set i (v.getLastD vx)) i (by simp; omega) hpre2]
          by_cases ha : a = vx
          · simp [ha]
          · rw [if_neg ha, if_neg ha]
            have hcs := List.count_set (a := v.getLastD vx) (b := a)
              (l := v.dropLast) (i := i) hidl
            simp only [beq_iff_eq] at hcs
            have hdla : v.dropLast[i] = v.get ⟨i, hlt⟩ := by
              rw [List.getElem_dropLast]
              rfl
            rw [hdla, hv, if_neg (fun h => ha h.symm)] at hcs
            have := hcv a
            rw [← hLlast] at this
            by_cases hLa : v.getLastD vx = a
            · rw [if_pos hLa] at hcs this
              omega
            · rw [if_neg hLa] at hcs this
              omega
      · rw [if_neg hv]
        apply ih v (i + 1) (by omega)
        intro j hj hji
        by_cases hjeq : j = i
        · subst hjeq
          exact hv
        · exact hpre j hj (by omega)
    · rw [dif_neg hlt]
      have hcnt : v.count vx = 0 :=
        count_notmem_zero vx v (fun j hj => hpre j hj (by omega))
      by_cases ha : a = vx
      · simp [ha, hcnt]
      · simp [ha]

/-- Swap-with-back removal is the order-preserving filter, up to
permutation. -/
theorem removeScan_perm [DecidableEq α] (vx : α) (v : List α) :
    (removeScan vx v 0).Perm (v.filter (fun x => x ≠ vx)) := by
  rw [List.perm_iff_count]
  intro a
  rw [removeScan_count vx a v.length v 0 (by omega) (by intro j hj h; omega)]
  by_cases ha : a = vx
  · subst ha
    rw [if_pos rfl]
    symm
    rw [List.count_eq_zero]
    intro hmem
    have := List.of_mem_filter hmem
    simp at this
  · rw [if_neg ha]
    rw [List.count_filter]
    simp [ha]

/-- `cotamer::event`: a nullable handle to an event body. `none` is the
null handle (`event(nullptr)`), which reports triggered and empty
(src/pset2/cotamer.hh:618-624). -/
abbrev Event := Option EventBody

/-- `event::triggered()`: a null handle is triggered. -/
def Event.triggeredE : Event → Bool
  | none => true
  | some b => b.triggered

/-- `event::empty()`: a null handle is empty. -/
def Event.isEmptyE : Event → Bool
  | none => true
  | some b => b.isEmpty

/-- Invariant step lemma: a property preserved by each valid event
operation is preserved by every valid operation sequence. -/
theorem runEOps_preserve (P : EventBody → Prop)
    (hadd : ∀ (l : Listener) (b : EventBody),
      ¬ b.triggered = true → P b → P (b.add l))
    (hrem : ∀ (l : Listener) (b : EventBody), P b → P (b.remove l))
    (htrig : ∀ b : EventBody, P b → P ((b.trigger []).1)) :
    ∀ (ops : List EOp) (b : EventBody), ValidEOps b ops → P b →
      P (runEOps ops b) := by
  intro ops
  induction ops with
  | nil => intro b _ hb; exact hb
  | cons op rest ih =>
    intro b hv hb
    obtain ⟨h1, h2⟩ := hv
    have hstep : P (applyEOp op b) := by
      cases op with
      | add l => exact hadd l b h1 hb
      | remove l => exact hrem l b hb
      | trigger => exact htrig b hb
    exact ih (applyEOp op b) h2 hstep

/-- The listener list after a trigger-free operation sequence is a
permutation of the registration order. -/
theorem runEOps_elems_perm (ops : List EOp) :
    ∀ (b : EventBody) (acc : List Listener),
    (∀ op ∈ ops, op ≠ EOp.trigger) →
    b.vs.elems.Perm acc →
    (runEOps ops b).vs.elems.Perm
      (ops.foldl
        (fun acc op =>
          match op with
          | .add l => acc ++ [l]
          | .remove l => acc.filter (fun x => x ≠ l)
          | .trigger => acc)
        acc) := by
  induction ops with
  | nil => intro b acc _ hp; exact hp
  | cons op rest ih =>
    intro b acc hnt hp
    cases op with
    | add l =>
      refine ih (b.add l) (acc ++ [l]) (fun o ho => hnt o (by simp [ho])) ?_
      simp only [EventBody.add, SmallVec.pushBack]
      exact hp.append (List.Perm.refl [l])
    | remove l =>
      refine ih (b.remove l) (acc.filter (fun x => x ≠ l))
        (fun o ho => hnt o (by simp [ho])) ?_
      simp only [EventBody.remove]
      exact (removeScan_perm l b.vs.elems).trans (hp.filter _)
    | trigger =>
      exact absurd rfl (hnt .trigger (by simp))

/-- For an add-only operation sequence the listener list is exactly the
sequence of added listeners, in order. -/
theorem runEOps_elems_addonly (ops : List EOp) :
    ∀ (b : EventBody),
    (∀ op ∈ ops, ∃ l, op = EOp.add l) →
    (runEOps ops b).vs.elems
      = ops.foldl
          (fun acc op =>
            match op with
            | .add l => acc ++ [l]
            | .remove l => acc.filter (fun x => x ≠ l)
            | .trigger => acc)
          b.vs.elems := by
  induction ops with
  | nil => intro b _; rfl
  | cons op rest ih =>
    intro b hao
    obtain ⟨l, rfl⟩ := hao op (by simp)
    exact ih (b.add l) (fun o ho => hao o (by simp [ho]))

theorem removeScan_nil [DecidableEq α] (vx : α) (i : Nat) :
    removeScan vx ([] : List α) i = [] := by
  rw [removeScan]
  simp

/-- The concrete operation sequence refuting the order half of C2:
register coroutines 1, 2, 3 and then remove 1. -/
def c2ops : List EOp :=
  [EOp.add (Listener.coro 1), EOp.add (Listener.coro 2),
   EOp.add (Listener.coro 3), EOp.remove (Listener.coro 1)]

/-- C2 counterexample: on the event built by
add(coro 1); add(coro 2); add(coro 3); remove(coro 1), `trigger` pushes the
coroutines in the order [3, 2] — the swap-with-back removal moved listener
3 into the removed slot — while the registration order of the surviving
listeners is [2, 3]. -/
theorem c2_remove_breaks_order :
    (((runEOps c2ops (EventBody.fresh 0)).trigger []).2.1 = [3, 2])
    ∧ EventBody.corosOf (regOrder c2ops) = [2, 3] := by
  have hstate : (runEOps c2ops (EventBody.fresh 0)).vs.elems
      = removeScan (Listener.coro 1)
          [Listener.coro 1, Listener.coro 2, Listener.coro 3] 0 := rfl
  have hrs : removeScan (Listener.coro 1)
      [Listener.coro 1, Listener.coro 2, Listener.coro 3] 0
      = [Listener.coro 3, Listener.coro 2] := by
    set_option maxHeartbeats 1000000 in simp [removeScan]
  have htr : ((runEOps c2ops (EventBody.fresh 0)).trigger []).2.1
      = EventBody.corosOf ((runEOps c2ops (EventBody.fresh 0)).vs.elems) := rfl
  constructor
  · rw [htr, hstate, hrs]
    rfl
  · rfl

/-- C2 (amended): after `trigger(e)` on an event whose listener list was
built by any trigger-free sequence of `add`/`remove` operations, every
coroutine listener of `e` appears in the ready queue, and the listener
list is a permutation of the registration order; when no `remove`
preceded, the coroutines moreover appear exactly in registration order.
(`remove`'s swap-with-back reorders the survivors, so exact registration
order cannot be promised once a `remove` occurred — see the
counterexample.) -/
theorem c2_trigger_ready_order (ops : List EOp) (ready : List Nat)
    (hnt : ∀ op ∈ ops, op ≠ EOp.trigger) :
    (∀ h : Nat,
      Listener.coro h ∈ (runEOps ops (EventBody.fresh 0)).vs.elems →
      h ∈ ((runEOps ops (EventBody.fresh 0)).trigger ready).2.1)
    ∧ (runEOps ops (EventBody.fresh 0)).vs.elems.Perm (regOrder ops)
    ∧ ((∀ op ∈ ops, ∃ l, op = EOp.add l) →
        ((runEOps ops (EventBody.fresh 0)).trigger ready).2.1
          = ready ++ EventBody.corosOf (regOrder ops)) := by
  refine ⟨?_, ?_, ?_⟩
  · intro h hm
    show h ∈ ready ++ EventBody.corosOf (runEOps ops (EventBody.fresh 0)).vs.elems
    apply List.mem_append_right
    exact List.mem_filterMap.mpr ⟨Listener.coro h, hm, rfl⟩
  · exact runEOps_elems_perm ops (EventBody.fresh 0) [] hnt (List.Perm.refl [])
  · intro hao
    show ready ++ EventBody.corosOf (runEOps ops (EventBody.fresh 0)).vs.elems
      = ready ++ EventBody.corosOf (regOrder ops)
    rw [runEOps_elems_addonly ops (EventBody.fresh 0) hao]
    rfl

/-- Witness for the amended C2 at a concrete add-only run. -/
theorem c2_trigger_ready_order_witness :
    ((∀ op ∈ [EOp.add (Listener.coro 2), EOp.add (Listener.coro 7)],
        op ≠ EOp.trigger)
      ∧ (∀ op ∈ [EOp.add (Listener.coro 2), EOp.add (Listener.coro 7)],
          ∃ l, op = EOp.add l))
    ∧ ((runEOps [EOp.add (Listener.coro 2), EOp.add (Listener.coro 7)]
          (EventBody.fresh 0)).trigger [9]).2.1
        = [9] ++ EventBody.corosOf
            (regOrder [EOp.add (Listener.coro 2), EOp.add (Listener.coro 7)]) :=
  ⟨⟨by decide, by intro op hop; fin_cases hop <;> exact ⟨_, rfl⟩⟩,
    (c2_trigger_ready_order
      [EOp.add (Listener.coro 2), EOp.add (Listener.coro 7)] [9]
      (by decide)).2.2
      (by intro op hop; fin_cases hop <;> exact ⟨_, rfl⟩)⟩

/-- C4: `triggered` is monotone under every valid operation sequence
(a triggered event never reverts), and a second `trigger` right after a
first is a no-op: it leaves the body state unchanged, appends nothing to
the ready queue, and notifies no quorum parents. -/
theorem c4_triggered_monotone_retrigger_noop (b : EventBody)
    (ready : List Nat) (ops : List EOp) (hv : ValidEOps b ops)
    (ht : b.triggered = true) :
    (runEOps ops b).triggered = true
    ∧ ((b.trigger ready).1.trigger (b.trigger ready).2.1
        = ((b.trigger ready).1, (b.trigger ready).2.1, ([] : List Nat))) := by
  constructor
  · refine runEOps_preserve (fun s => s.triggered = true) ?_ ?_ ?_ ops b hv ht
    · intro l s hnt htr
      exact absurd htr hnt
    · intro l s htr
      simpa [EventBody.remove, EventBody.triggered, SmallVec.emptyCapacity]
        using htr
    · intro s _
      rfl
  · simp [EventBody.trigger, SmallVec.clearCapacity, EventBody.corosOf,
      EventBody.quorumsOf]

/-- Witness for C4 at a concrete triggered body and operation list. -/
theorem c4_triggered_monotone_retrigger_noop_witness :
    (ValidEOps ⟨0, ⟨0, []⟩⟩ [EOp.trigger]
      ∧ EventBody.triggered ⟨0, ⟨0, []⟩⟩ = true)
    ∧ ((runEOps [EOp.trigger] ⟨0, ⟨0, []⟩⟩).triggered = true
      ∧ ((EventBody.trigger ⟨0, ⟨0, []⟩⟩ [5]).1.trigger
            (EventBody.trigger ⟨0, ⟨0, []⟩⟩ [5]).2.1
          = ((EventBody.trigger ⟨0, ⟨0, []⟩⟩ [5]).1,
             (EventBody.trigger ⟨0, ⟨0, []⟩⟩ [5]).2.1, ([] : List Nat)))) :=
  ⟨⟨by decide, by decide⟩,
    c4_triggered_monotone_retrigger_noop ⟨0, ⟨0, []⟩⟩ [5] [EOp.trigger]
      (by decide) (by decide)⟩

/-- C10: `triggered(e)` implies `empty(e)`. For every valid operation
sequence on a fresh event body of any flag word (plain events and quorum
result bodies alike), a triggered state has an empty listener set — no
valid operation makes a triggered event non-empty — and the null handle
reports both triggered and empty. This emptiness is exactly the predicate
`driver_timers::cull` evaluates on the heap root's payload. -/
theorem c10_triggered_implies_empty (f : Nat) (ops : List EOp)
    (hv : ValidEOps (EventBody.fresh f) ops) :
    ((runEOps ops (EventBody.fresh f)).triggered = true →
      (runEOps ops (EventBody.fresh f)).isEmpty = true)
    ∧ Event.triggeredE none = true ∧ Event.isEmptyE none = true := by
  refine ⟨?_, rfl, rfl⟩
  have hinv : (runEOps ops (EventBody.fresh f)).vs.cap = 0 →
      (runEOps ops (EventBody.fresh f)).vs.elems = [] := by
    refine runEOps_preserve (fun s => s.vs.cap = 0 → s.vs.elems = []) ?_ ?_ ?_
      ops (EventBody.fresh f) hv ?_
    · intro l s hnt _ hcap
      exfalso
      have hc : s.vs.cap ≠ 0 := by
        simpa [EventBody.triggered, SmallVec.emptyCapacity] using hnt
      revert hcap
      simp only [EventBody.add, SmallVec.pushBack]
      split_ifs <;> omega
    · intro l s hs hcap
      simp only [EventBody.remove] at hcap ⊢
      rw [hs hcap, removeScan_nil]
    · intro s _ _
      rfl
    · intro h
      simp [EventBody.fresh, SmallVec.fresh, listenerCap] at h
  intro htr
  have hcap : (runEOps ops (EventBody.fresh f)).vs.cap = 0 := by
    simpa [EventBody.triggered, SmallVec.emptyCapacity] using htr
  simp [EventBody.isEmpty, SmallVec.isEmpty, hinv hcap]

/-- Witness for C10 on a quorum-flagged body with a listener added and a
trigger. -/
theorem c10_triggered_implies_empty_witness :
    ValidEOps (EventBody.fresh 4) [EOp.add (Listener.quorum 2), EOp.trigger]
    ∧ (((runEOps [EOp.add (Listener.quorum 2), EOp.trigger]
          (EventBody.fresh 4)).triggered = true →
        (runEOps [EOp.add (Listener.quorum 2), EOp.trigger]
          (EventBody.fresh 4)).isEmpty = true)
      ∧ Event.triggeredE none = true ∧ Event.isEmptyE none = true) :=
  ⟨by decide,
    c10_triggered_implies_empty 4 [EOp.add (Listener.quorum 2), EOp.trigger]
      (by decide)⟩

/-! ### Task promise interest machinery (claim C5) -/

/-- The interest-related fields of `task_promise<T>`
(src/pset2/cotamer.hh:158-165): the `has_interest_` flag and the
`interest_` handle (`none` is the null `event_handle`). -/
structure TaskPromise where
  hasInterest : Bool
  interest : Option EventBody
deriving Repr, DecidableEq

/-- `task_promise::make_interest` (src/pset2/cotamer.hh:462-469): create a
fresh interest event body only when `has_interest_` is still false; return
the updated promise together with the (possibly null) `interest_` field. -/
def TaskPromise.makeInterest (p : TaskPromise) : TaskPromise × Option EventBody :=
  if p.hasInterest then (p, p.interest)
  else
    let p2 : TaskPromise := ⟨true, some (EventBody.fresh 0)⟩
    (p2, p2.interest)

/-- `task::start` (src/pset2/cotamer.hh:688-699): a done task is left
alone; otherwise, if `interest_` is set it is triggered (its coroutine
listeners go to the ready queue and its quorum parents are notified),
else only `has_interest_` is raised — no event is created. Returns the new
promise, the new ready queue and the quorum parents notified. -/
def TaskPromise.start (done : Bool) (p : TaskPromise) (ready : List Nat) :
    TaskPromise × List Nat × List Nat :=
  if done then (p, ready, [])
  else
    match p.interest with
    | some b =>
        let t := b.trigger ready
        ({ p with interest := some t.1 }, t.2.1, t.2.2)
    | none => ({ p with hasInterest := true }, ready, [])

/-- `co_await interest{}` readiness: `await_transform(interest)` builds a
`task_event_awaiter` on `make_interest()` (src/pset2/cotamer.hh:479-486)
whose `await_ready` is `event::triggered()` of that handle
(src/pset2/cotamer.hh:440-442). -/
def TaskPromise.awaitInterestReady (p : TaskPromise) : TaskPromise × Bool :=
  let m := p.makeInterest
  (m.1, Event.triggeredE m.2)

/-- C5 counterexample: on a fresh promise (no interest event yet) of a
not-done task, `start()` creates no interest event — `interest_` stays
null — and triggers nothing (the ready queue and the quorum notification
list are untouched); it only raises `has_interest_`. -/
theorem c5_start_creates_no_event :
    ((TaskPromise.start false ⟨false, none⟩ []).1.interest = none)
    ∧ (TaskPromise.start false ⟨false, none⟩ []).2.1 = []
    ∧ (TaskPromise.start false ⟨false, none⟩ []).2.2 = [] := by decide

/-- C5 (amended): for a not-done task, `start()` triggers the interest
event when one exists; when none exists it creates none and only sets
`has_interest_`, making the interest resolve to the null (born-triggered)
handle. In both cases a subsequent `co_await interest\x7b\x7d` in the task body
finds the interest satisfied and continues without suspending. -/
theorem c5_start_noswait (p : TaskPromise) (ready : List Nat)
    (hinv : p.interest = none ∨ p.hasInterest = true) :
    (∀ b, p.interest = some b →
      (TaskPromise.start false p ready).1.interest = some (b.trigger ready).1
      ∧ (TaskPromise.start false p ready).2.1 = (b.trigger ready).2.1
      ∧ Event.triggeredE ((TaskPromise.start false p ready).1.interest) = true)
    ∧ (p.interest = none →
        (TaskPromise.start false p ready).1 = ⟨true, none⟩
        ∧ (TaskPromise.start false p ready).2.1 = ready)
    ∧ ((TaskPromise.start false p ready).1.awaitInterestReady).2 = true := by
  refine ⟨?_, ?_, ?_⟩
  · intro b hb
    simp [TaskPromise.start, hb, Event.triggeredE, EventBody.trigger,
      EventBody.triggered, SmallVec.clearCapacity, SmallVec.emptyCapacity]
  · intro hn
    cases p with
    | mk hi iv =>
      cases hn
      simp [TaskPromise.start]
  · cases hi : p.interest with
    | none =>
      cases p with
      | mk hasi iv =>
        cases hi
        simp [TaskPromise.start, TaskPromise.awaitInterestReady,
          TaskPromise.makeInterest, Event.triggeredE]
    | some b =>
      have hh : p.hasInterest = true := by
        rcases hinv with h | h
        · rw [hi] at h; cases h
        · exact h
      cases p with
      | mk hasi iv =>
        cases hi
        cases hh
        simp [TaskPromise.start, TaskPromise.awaitInterestReady,
          TaskPromise.makeInterest, Event.triggeredE, EventBody.trigger,
          EventBody.triggered, SmallVec.clearCapacity, SmallVec.emptyCapacity]

/-- Witness for the amended C5 on a fresh promise. -/
theorem c5_start_noswait_witness :
    ((⟨false, none⟩ : TaskPromise).interest = none
      ∨ (⟨false, none⟩ : TaskPromise).hasInterest = true)
    ∧ (((TaskPromise.start false ⟨false, none⟩ [4]).1 = ⟨true, none⟩
        ∧ (TaskPromise.start false ⟨false, none⟩ [4]).2.1 = [4])
      ∧ ((TaskPromise.start false ⟨false, none⟩ [4]).1.awaitInterestReady).2
          = true) :=
  ⟨Or.inl rfl,
    ⟨(c5_start_noswait ⟨false, none⟩ [4] (Or.inl rfl)).2.1 rfl,
     (c5_start_noswait ⟨false, none⟩ [4] (Or.inl rfl)).2.2⟩⟩

/-! ### Driver timer arming (claim C6) -/

/-- The driver state seen by `driver::at`/`driver::after`: the clock and
the sequence of `timed_.emplace(when, handle)` calls made (the heap's
internal arrangement is the business of the timer-heap model below). -/
structure DriverAt where
  now : Int
  heap : List (Int × EventBody)
deriving Repr, DecidableEq

/-- `driver::at(t)` (src/pset2/cotamer.hh:743-750): `t ≤ now` returns the
null (already triggered) event and arms nothing; otherwise a fresh event
is created, one heap entry `(t, e)` is emplaced, and the untriggered event
is returned. -/
def driverAt (t : Int) (s : DriverAt) : Event × DriverAt :=
  if t ≤ s.now then
    (none, s)
  else
    let e := EventBody.fresh 0
    (some e, { s with heap := s.heap ++ [(t, e)] })

/-- `driver::after(d)` (src/pset2/cotamer.hh:756-758): `at(now() + d)`. -/
def driverAfter (d : Int) (s : DriverAt) : Event × DriverAt :=
  driverAt (s.now + d) s

/-- C6: for `t ≤ now`, `at(t)` returns an already-triggered event and arms
no timer; for `t > now` it returns an untriggered event and emplaces
exactly one heap entry; `after(d)` behaves likewise with `t = now + d`, so
non-positive `d` yields an already-triggered event with no heap entry and
positive `d` arms one entry. -/
theorem c6_at_after_boundary (s : DriverAt) (t d : Int) :
    (t ≤ s.now →
      driverAt t s = (none, s)
      ∧ Event.triggeredE (driverAt t s).1 = true)
    ∧ (s.now < t →
      Event.triggeredE (driverAt t s).1 = false
      ∧ (driverAt t s).2.heap = s.heap ++ [(t, EventBody.fresh 0)])
    ∧ (d ≤ 0 →
      driverAfter d s = (none, s)
      ∧ Event.triggeredE (driverAfter d s).1 = true)
    ∧ (0 < d →
      Event.triggeredE (driverAfter d s).1 = false
      ∧ (driverAfter d s).2.heap = s.heap ++ [(s.now + d, EventBody.fresh 0)]) := by
  refine ⟨?_, ?_, ?_, ?_⟩
  · intro h
    simp [driverAt, h, Event.triggeredE]
  · intro h
    rw [driverAt, if_neg (by omega)]
    simp [Event.triggeredE, EventBody.triggered, EventBody.fresh,
      SmallVec.fresh, SmallVec.emptyCapacity, listenerCap]
  · intro h
    have : s.now + d ≤ s.now := by omega
    simp [driverAfter, driverAt, this, Event.triggeredE]
  · intro h
    rw [driverAfter, driverAt, if_neg (by omega)]
    simp [Event.triggeredE, EventBody.triggered, EventBody.fresh,
      SmallVec.fresh, SmallVec.emptyCapacity, listenerCap]

/-- Witness for C6 at a concrete clock, a due and a future time point. -/
theorem c6_at_after_boundary_witness :
    ((10 : Int) ≤ 10 ∧ (0 : Int) ≤ 0 ∧ (0 : Int) < 7 ∧ (10 : Int) < 17)
    ∧ (driverAt 10 ⟨10, []⟩ = (none, ⟨10, []⟩)
        ∧ Event.triggeredE (driverAt 10 ⟨10, []⟩).1 = true)
    ∧ (Event.triggeredE (driverAt 17 ⟨10, []⟩).1 = false
        ∧ (driverAt 17 ⟨10, []⟩).2.heap = [] ++ [(17, EventBody.fresh 0)])
    ∧ (driverAfter 0 ⟨10, []⟩ = (none, ⟨10, []⟩)
        ∧ Event.triggeredE (driverAfter 0 ⟨10, []⟩).1 = true)
    ∧ (Event.triggeredE (driverAfter 7 ⟨10, []⟩).1 = false
        ∧ (driverAfter 7 ⟨10, []⟩).2.heap = [] ++ [((10 : Int) + 7, EventBody.fresh 0)]) :=
  ⟨⟨by decide, by decide, by decide, by decide⟩,
   (c6_at_after_boundary ⟨10, []⟩ 10 0).1 (by decide),
   (c6_at_after_boundary ⟨10, []⟩ 17 0).2.1 (by decide),
   (c6_at_after_boundary ⟨10, []⟩ 10 0).2.2.1 (by decide),
   (c6_at_after_boundary ⟨10, []⟩ 10 7).2.2.2 (by decide)⟩

/-! ### Quorum bodies (claims C3 and C8)

Model of `quorum_event_body` (src/pset2/cotamer.hh:351-420). Member events
are identified by `Nat` ids; whether a member spec is null/already
triggered is a `Bool` fixed at the call. `delete this` in
`trigger_and_destroy` is modelled by the `alive` flag: once it is false no
caller can reach the object again (its tagged pointer was stripped from
every member and from the result body), so the operations are defined to
leave a dead state unchanged. `resultTriggers` is ghost state counting the
`result_ptr_->trigger()` calls. -/

structure QuorumSt where
  es : List Nat
  resultPtr : Bool
  triggeredC : Nat
  quorum : Nat
  flags : Nat
  alive : Bool
  resultTriggers : Nat
deriving Repr, DecidableEq

/-- `quorum_event_body::add` (src/pset2/cotamer.hh:362-372): a null or
already-triggered handle only bumps `triggered_`; a live one is stored
(and, on the member side, receives the quorum's tagged listener). -/
def QuorumSt.addMember (q : QuorumSt) (m : Nat) (tr : Bool) : QuorumSt :=
  if tr then { q with triggeredC := q.triggeredC + 1 }
  else { q with es := q.es ++ [m] }

/-- The `quorum_event_body` constructor (src/pset2/cotamer.hh:352-356)
folding `add` over the member specs, starting from `triggered_ = 0` and
the given threshold. -/
def mkQuorum (k : Nat) (specs : List (Nat × Bool)) : QuorumSt :=
  specs.foldl (fun q s => q.addMember s.1 s.2)
    ⟨[], false, 0, k, 0, true, 0⟩

/-- `quorum_event_body::trigger_and_destroy` (src/pset2/cotamer.hh:401-411):
strip the quorum's listener from all remaining members and clear the
member list; unless the destruction was caused by the result event itself,
remove the listener from the result body and trigger it; then delete. -/
def QuorumSt.triggerAndDestroy (q : QuorumSt) (result : Bool) : QuorumSt :=
  { q with
    es := [],
    resultTriggers :=
      q.resultTriggers + (if q.resultPtr ∧ ¬result then 1 else 0),
    alive := false }

/-- `quorum_event_body::result_event` (src/pset2/cotamer.hh:374-384): when
the quorum is already reached, trigger-and-destroy and hand back the null
(already triggered) event; otherwise allocate a fresh quorum-flagged
result body carrying this quorum as its listener. `self` is the quorum's
tagged address. -/
def QuorumSt.resultEvent (self : Nat) (q : QuorumSt) : Event × QuorumSt :=
  if q.quorum ≤ q.triggeredC then
    (none, q.triggerAndDestroy false)
  else
    (some ((EventBody.fresh (q.flags + 4)).add (Listener.quorum self)),
     { q with resultPtr := true })

/-- `quorum_event_body::mark_trigger` (src/pset2/cotamer.hh:386-399) for a
member event `e` (not the result body): the swap-with-back loop removes
every occurrence of `e` from `es_`, bumping `triggered_` once per
occurrence, then destroys the quorum if the threshold is reached. -/
def QuorumSt.markTrigger (q : QuorumSt) (e : Nat) : QuorumSt :=
  if q.alive then
    let q2 : QuorumSt :=
      { q with
        es := removeScan e q.es 0,
        triggeredC := q.triggeredC + q.es.count e }
    if q2.quorum ≤ q2.triggeredC then q2.triggerAndDestroy false else q2
  else q

/-- The local branch of `quorum_event_body::apply_interest`
(src/pset2/cotamer.hh:514-534): clear `f_want_interest`; when this quorum
carries the `f_interest` flag, `add` the interest event (which may already
be triggered) and destroy if the threshold is now reached. The
want-interest descent into child quorums mutates the children, not this
body, and is each child's own `apply_interest` in this same model. -/
def QuorumSt.applyInterest (q : QuorumSt) (ie : Nat) (tr : Bool) : QuorumSt :=
  if q.alive then
    let q1 : QuorumSt := { q with flags := q.flags - q.flags % 2 }
    if q1.flags.testBit 1 then
      let q2 := q1.addMember ie tr
      if q2.quorum ≤ q2.triggeredC then q2.triggerAndDestroy false else q2
    else q1
  else q

/-- The operations of a quorum's lifetime after construction: a member
event triggering (`mark_trigger` from `event_body::trigger`) and interest
resolution. -/
inductive QOp where
  | member (e : Nat)
  | interest (ie : Nat) (tr : Bool)
deriving Repr, DecidableEq

def applyQOp (q : QuorumSt) (op : QOp) : QuorumSt :=
  match op with
  | .member e => q.markTrigger e
  | .interest ie tr => q.applyInterest ie tr

def runQOps (ops : List QOp) (q : QuorumSt) : QuorumSt :=
  ops.foldl applyQOp q

/-- Construction only accumulates `triggered_` and `es_`: the threshold,
liveness, result pointer and ghost trigger count are untouched. -/
theorem mkQuorum_fields (specs : List (Nat × Bool)) :
    ∀ q : QuorumSt,
      ((specs.foldl (fun q s => q.addMember s.1 s.2) q).quorum = q.quorum
      ∧ (specs.foldl (fun q s => q.addMember s.1 s.2) q).alive = q.alive
      ∧ (specs.foldl (fun q s => q.addMember s.1 s.2) q).resultPtr = q.resultPtr
      ∧ (specs.foldl (fun q s => q.addMember s.1 s.2) q).resultTriggers
          = q.resultTriggers) := by
  induction specs with
  | nil => intro q; exact ⟨rfl, rfl, rfl, rfl⟩
  | cons s rest ih =>
    intro q
    have h := ih (q.addMember s.1 s.2)
    have ha : (q.addMember s.1 s.2).quorum = q.quorum
        ∧ (q.addMember s.1 s.2).alive = q.alive
        ∧ (q.addMember s.1 s.2).resultPtr = q.resultPtr
        ∧ (q.addMember s.1 s.2).resultTriggers = q.resultTriggers := by
      simp only [QuorumSt.addMember]
      split_ifs <;> exact ⟨rfl, rfl, rfl, rfl⟩
    simp only [List.foldl_cons]
    exact ⟨h.1.trans ha.1, h.2.1.trans ha.2.1, h.2.2.1.trans ha.2.2.1,
      h.2.2.2.trans ha.2.2.2⟩

/-- `triggered_` never decreases across a lifetime operation. -/
theorem applyQOp_triggeredC_mono (q : QuorumSt) (op : QOp) :
    q.triggeredC ≤ (applyQOp q op).triggeredC := by
  cases op with
  | member e =>
    simp only [applyQOp, QuorumSt.markTrigger]
    split_ifs <;> simp [QuorumSt.triggerAndDestroy]
  | interest ie tr =>
    simp only [applyQOp, QuorumSt.applyInterest, QuorumSt.addMember]
    split_ifs <;> simp [QuorumSt.triggerAndDestroy]

theorem runQOps_triggeredC_mono (ops : List QOp) :
    ∀ q : QuorumSt, q.triggeredC ≤ (runQOps ops q).triggeredC := by
  induction ops with
  | nil => intro q; exact Nat.le_refl _
  | cons op rest ih =>
    intro q
    exact (applyQOp_triggeredC_mono q op).trans (ih (applyQOp q op))

/-- The exactly-once invariant of a quorum that has handed out a live
result event: while alive the threshold is unreached and the result has
never triggered; once dead the threshold was reached and the result
triggered exactly once. -/
def QuorumInv (k : Nat) (q : QuorumSt) : Prop :=
  q.quorum = k ∧ q.resultPtr = true ∧
  ((q.alive = true ∧ q.resultTriggers = 0 ∧ q.triggeredC < k)
   ∨ (q.alive = false ∧ q.resultTriggers = 1 ∧ k ≤ q.triggeredC))

theorem applyQOp_inv (k : Nat) (q : QuorumSt) (op : QOp)
    (h : QuorumInv k q) : QuorumInv k (applyQOp q op) := by
  obtain ⟨es, rp, tc, qu, fl, al, rt⟩ := q
  obtain ⟨hk, hr, hc⟩ := h
  dsimp only at hk hr hc
  subst hk
  subst hr
  rcases hc with ⟨ha, ht, hb⟩ | ⟨ha, ht, hb⟩ <;>
    subst ha <;> subst ht <;> cases op <;>
    simp only [applyQOp, QuorumSt.markTrigger, QuorumSt.applyInterest,
      QuorumSt.addMember, QuorumSt.triggerAndDestroy, QuorumInv,
      if_true, if_false, Bool.false_eq_true]
  all_goals try split_ifs
  all_goals simp_all

theorem runQOps_inv (k : Nat) (ops : List QOp) :
    ∀ q : QuorumSt, QuorumInv k q → QuorumInv k (runQOps ops q) := by
  induction ops with
  | nil => intro q h; exact h
  | cons op rest ih =>
    intro q h
    exact ih (applyQOp q op) (applyQOp_inv k q op h)

/-- C3: a quorum with threshold `k` whose construction left it unsatisfied
(so `result_event` handed out a live result body) triggers its result
event exactly once over its lifetime if `triggered_` ever reaches `k`, and
never otherwise; moreover "ever reaches `k`" is the same as "has reached
`k` at the end", since `triggered_` never decreases and a dead quorum is
frozen. -/
theorem c3_result_triggers_once (k : Nat) (specs : List (Nat × Bool))
    (self : Nat) (ops : List QOp)
    (hlt : (mkQuorum k specs).triggeredC < k) :
    ((runQOps ops ((mkQuorum k specs).resultEvent self).2).resultTriggers
        = if k ≤ (runQOps ops ((mkQuorum k specs).resultEvent self).2).triggeredC
          then 1 else 0)
    ∧ ((∃ n, k ≤ (runQOps (ops.take n)
          ((mkQuorum k specs).resultEvent self).2).triggeredC)
        ↔ k ≤ (runQOps ops ((mkQuorum k specs).resultEvent self).2).triggeredC) := by
  have hf := mkQuorum_fields specs ⟨[], false, 0, k, 0, true, 0⟩
  have hq : (mkQuorum k specs).quorum = k := hf.1
  have hres : ((mkQuorum k specs).resultEvent self).2
      = { mkQuorum k specs with resultPtr := true } := by
    rw [QuorumSt.resultEvent, if_neg (by rw [hq]; omega)]
  have hinv0 : QuorumInv k ((mkQuorum k specs).resultEvent self).2 := by
    rw [hres]
    exact ⟨hq, rfl, Or.inl ⟨hf.2.1, hf.2.2.2, hlt⟩⟩
  have hinv := runQOps_inv k ops _ hinv0
  constructor
  · obtain ⟨_, _, hc⟩ := hinv
    rcases hc with ⟨_, ht, hlt2⟩ | ⟨_, ht, hge⟩
    · rw [ht, if_neg (by omega)]
    · rw [ht, if_pos hge]
  · constructor
    · rintro ⟨n, hn⟩
      have hsplit : runQOps ops ((mkQuorum k specs).resultEvent self).2
          = runQOps (ops.drop n)
              (runQOps (ops.take n) ((mkQuorum k specs).resultEvent self).2) := by
        rw [runQOps, runQOps, runQOps, ← List.foldl_append,
          List.take_append_drop]
      rw [hsplit]
      exact hn.trans (runQOps_triggeredC_mono (ops.drop n) _)
    · intro hfin
      refine ⟨ops.length, ?_⟩
      rw [List.take_length]
      exact hfin

/-- Witness for C3: an `all`-style quorum of threshold 2 over members 1
and 2, both live at construction, then both triggering. -/
theorem c3_result_triggers_once_witness :
    ((mkQuorum 2 [(1, false), (2, false)]).triggeredC < 2)
    ∧ (((runQOps [QOp.member 1, QOp.member 2]
          ((mkQuorum 2 [(1, false), (2, false)]).resultEvent 9).2).resultTriggers
        = if 2 ≤ (runQOps [QOp.member 1, QOp.member 2]
              ((mkQuorum 2 [(1, false), (2, false)]).resultEvent 9).2).triggeredC
          then 1 else 0)
      ∧ ((∃ n, 2 ≤ (runQOps ([QOp.member 1, QOp.member 2].take n)
            ((mkQuorum 2 [(1, false), (2, false)]).resultEvent 9).2).triggeredC)
          ↔ 2 ≤ (runQOps [QOp.member 1, QOp.member 2]
              ((mkQuorum 2 [(1, false), (2, false)]).resultEvent 9).2).triggeredC)) :=
  ⟨by decide,
    c3_result_triggers_once 2 [(1, false), (2, false)] 9
      [QOp.member 1, QOp.member 2] (by decide)⟩

/-! ### Zero- and one-argument combinators (claim C8) -/

/-- `any()` with no arguments (src/pset2/cotamer.hh:789-791): the null,
already-triggered event. -/
def anyZero : Event := none

/-- `any(event e)` (src/pset2/cotamer.hh:793-795): returns `e` itself; no
quorum body is allocated. -/
def anyOne (e : Event) : Event := e

/-- `all()` with no arguments: the variadic template
(src/pset2/cotamer.hh:807-811) builds `quorum_event_body(0)` with no
members and asks for its result event; the threshold 0 is already met, so
the result is the null, already-triggered event. -/
def allZero : Event := ((mkQuorum 0 []).resultEvent 0).1

/-- C8: `any()` and `all()` of no arguments are already triggered, and
`any(e)` of a single event is `e` itself (same underlying body, no quorum
allocated). -/
theorem c8_nullary_unary_combinators :
    Event.triggeredE anyZero = true
    ∧ Event.triggeredE allZero = true
    ∧ ∀ e : Event, anyOne e = e :=
  ⟨rfl, by decide, fun _ => rfl⟩

/-! ### The driver loop (claims C1 and C9)

Model of `driver` state and `driver::loop` (src/pset2/cotamer.cc:21-54; the
second variant src/pset2/detail/cotamer.cc:25-57 differs only in the clock
advance of the ready phase). Each queued event is collapsed to the list of
ready-queue pushes its `trigger()` performs (its coroutine listeners, plus
whatever a quorum cascade contributes), because `trigger` never runs
coroutine code, touches the queues in no other way, and is the only thing
the loop does with an event. The timer heap appears in pop order (the heap
model below proves the root is minimal). Resuming a coroutine executes
arbitrary user code, so it is a parameter `eff` transforming driver
state. -/

structure DriverSt where
  clearing : Bool
  ready : List Nat
  asap : List (List Nat)
  timers : List (Int × List Nat)
  now : Int
deriving Repr, DecidableEq

/-- The asap phase of `loop` (src/pset2/cotamer.cc:26-30): trigger and pop
the front event while the queue is non-empty; each trigger appends the
event's pushes to the ready queue. -/
def asapDrain : List (List Nat) → List Nat → List Nat
  | [], ready => ready
  | ls :: rest, ready => asapDrain rest (ready ++ ls)

/-- The ready phase of the src/pset2/cotamer.cc variant (lines 32-40): pop
and resume the front coroutine, then advance the clock one tick — but only
when `clearing_` is false (checked after the resume, which may itself set
it). Returns the state plus the resume count and the loop's own
clock-advance count, or `none` when `fuel` outer steps did not drain the
queue. -/
def readyPhaseA (eff : Nat → DriverSt → DriverSt) :
    Nat → DriverSt → Option (DriverSt × Nat × Nat)
  | fuel, s =>
    match s.ready with
    | [] => some (s, 0, 0)
    | c :: rest =>
      match fuel with
      | 0 => none
      | fuel' + 1 =>
        let s1 := eff c { s with ready := rest }
        let adv : Nat := if s1.clearing then 0 else 1
        let s2 := { s1 with now := s1.now + adv }
        (readyPhaseA eff fuel' s2).map fun r => (r.1, r.2.1 + 1, r.2.2 + adv)

/-- The ready phase of the src/pset2/detail/cotamer.cc variant (lines
36-42): identical except that the clock advances after every resume,
clearing or not. -/
def readyPhaseB (eff : Nat → DriverSt → DriverSt) :
    Nat → DriverSt → Option (DriverSt × Nat × Nat)
  | fuel, s =>
    match s.ready with
    | [] => some (s, 0, 0)
    | c :: rest =>
      match fuel with
      | 0 => none
      | fuel' + 1 =>
        let s1 := eff c { s with ready := rest }
        let s2 := { s1 with now := s1.now + 1 }
        (readyPhaseB eff fuel' s2).map fun r => (r.1, r.2.1 + 1, r.2.2 + 1)

/-- C1 counterexample: a run of the src/pset2/cotamer.cc ready phase in
clearing mode (as after `clear()`), with one queued coroutine whose resume
does nothing: one resume happens but the clock advances zero ticks — the
advance is not performed "regardless of clearing mode". -/
theorem c1_clearing_resume_no_advance :
    readyPhaseA (fun _ s => s) 1 ⟨true, [7], [], [], 0⟩
      = some (⟨true, [], [], [], 0⟩, 1, 0) := by decide

theorem readyPhaseB_adv_eq (eff : Nat → DriverSt → DriverSt) :
    ∀ (fuel : Nat) (s : DriverSt) (r : DriverSt × Nat × Nat),
      readyPhaseB eff fuel s = some r → r.2.2 = r.2.1 := by
  intro fuel
  induction fuel with
  | zero =>
    intro s r h
    rw [readyPhaseB] at h
    match hr : s.ready with
    | [] =>
      rw [hr] at h
      cases h
      rfl
    | c :: rest =>
      rw [hr] at h
      cases h
  | succ fuel ih =>
    intro s r h
    rw [readyPhaseB] at h
    match hr : s.ready with
    | [] =>
      rw [hr] at h
      cases h
      rfl
    | c :: rest =>
      rw [hr] at h
      simp only [Option.map_eq_some'] at h
      obtain ⟨r', hr', hmap⟩ := h
      have := ih _ r' hr'
      subst hmap
      simp only
      omega

theorem readyPhaseA_adv_le (eff : Nat → DriverSt → DriverSt) :
    ∀ (fuel : Nat) (s : DriverSt) (r : DriverSt × Nat × Nat),
      readyPhaseA eff fuel s = some r → r.2.2 ≤ r.2.1 := by
  intro fuel
  induction fuel with
  | zero =>
    intro s r h
    rw [readyPhaseA] at h
    match hr : s.ready with
    | [] =>
      rw [hr] at h
      cases h
      exact Nat.le_refl _
    | c :: rest =>
      rw [hr] at h
      cases h
  | succ fuel ih =>
    intro s r h
    rw [readyPhaseA] at h
    match hr : s.ready with
    | [] =>
      rw [hr] at h
      cases h
      exact Nat.le_refl _
    | c :: rest =>
      rw [hr] at h
      simp only [Option.map_eq_some'] at h
      obtain ⟨r', hr', hmap⟩ := h
      have := ih _ r' hr'
      subst hmap
      simp only
      split_ifs <;> omega

theorem readyPhaseA_adv_eq_of_not_clearing
    (eff : Nat → DriverSt → DriverSt)
    (hp : ∀ c t, (eff c t).clearing = t.clearing) :
    ∀ (fuel : Nat) (s : DriverSt), s.clearing = false →
      ∀ (r : DriverSt × Nat × Nat),
      readyPhaseA eff fuel s = some r → r.2.2 = r.2.1 := by
  intro fuel
  induction fuel with
  | zero =>
    intro s hc r h
    rw [readyPhaseA] at h
    match hr : s.ready with
    | [] =>
      rw [hr] at h
      cases h
      rfl
    | c :: rest =>
      rw [hr] at h
      cases h
  | succ fuel ih =>
    intro s hc r h
    rw [readyPhaseA] at h
    match hr : s.ready with
    | [] =>
      rw [hr] at h
      cases h
      rfl
    | c :: rest =>
      rw [hr] at h
      dsimp only at h
      have hc1 : (eff c { s with ready := rest }).clearing = false := by
        rw [hp]
        exact hc
      rw [hc1] at h
      simp only [Bool.false_eq_true, if_false] at h
      simp only [Option.map_eq_some'] at h
      obtain ⟨r', hr', hmap⟩ := h
      have := ih _ rfl r' hr'
      subst hmap
      simp only
      omega

/-- C1 (amended): in the detail/cotamer.cc driver every resume advances
the clock exactly one tick (advances = resumes on every run); in the
src/pset2/cotamer.cc driver the advance is skipped while `clearing_` is
set after a resume, so there advances ≤ resumes always, with equality
whenever the driver is not clearing and no resumed coroutine sets the
flag. -/
theorem c1_resume_advances_clock (eff : Nat → DriverSt → DriverSt)
    (fuel : Nat) (s : DriverSt) :
    (∀ r, readyPhaseB eff fuel s = some r → r.2.2 = r.2.1)
    ∧ (∀ r, readyPhaseA eff fuel s = some r → r.2.2 ≤ r.2.1)
    ∧ ((∀ c t, (eff c t).clearing = t.clearing) → s.clearing = false →
        ∀ r, readyPhaseA eff fuel s = some r → r.2.2 = r.2.1) :=
  ⟨fun r => readyPhaseB_adv_eq eff fuel s r,
   fun r => readyPhaseA_adv_le eff fuel s r,
   fun hp hc r => readyPhaseA_adv_eq_of_not_clearing eff hp fuel s hc r⟩

/-- Witness for the amended C1: two do-nothing resumes with clearing off
advance the clock from 5 to 7 — advances equal resumes. -/
theorem c1_resume_advances_clock_witness :
    ((⟨false, [], [], [], 7⟩, 2, 2) : DriverSt × Nat × Nat).2.2
      = ((⟨false, [], [], [], 7⟩, 2, 2) : DriverSt × Nat × Nat).2.1 :=
  (c1_resume_advances_clock (fun _ s => s) 2 ⟨false, [3, 4], [], [], 5⟩).2.2
    (fun _ _ => rfl) rfl (⟨false, [], [], [], 7⟩, 2, 2) (by decide)

/-- The cull step (src/pset2/detail/cotamer_timers.hh:65-69): pop heap
entries from the root while the root's event is empty. -/
def cullT : List (Int × List Nat) → List (Int × List Nat)
  | [] => []
  | (t, ls) :: rest => if ls.isEmpty then cullT rest else (t, ls) :: rest

/-- The timer phase of `loop` (src/pset2/cotamer.cc:48-51): while the top
entry is due (`top_time() ≤ now`), trigger it (appending its pushes to the
ready queue) and pop it. Returns remaining timers, the ready queue, and
whether any entry fired. -/
def timerDrain (now : Int) :
    List (Int × List Nat) → List Nat → List (Int × List Nat) × List Nat × Bool
  | [], ready => ([], ready, false)
  | (t, ls) :: rest, ready =>
    if t ≤ now then
      let r := timerDrain now rest (ready ++ ls)
      (r.1, r.2.1, true)
    else ((t, ls) :: rest, ready, false)

/-- `driver::clear` (src/pset2/cotamer.cc:56-63): raise `clearing_`,
trigger-and-pop every asap event, then `timed_.clear()` which triggers
every heap entry in array order and discards them. Ready coroutines stay
queued. -/
def clearDrv (s : DriverSt) : DriverSt :=
  { clearing := true,
    ready := asapDrain s.asap s.ready ++ (s.timers.map Prod.snd).flatten,
    asap := [],
    timers := [],
    now := s.now }

/-- `driver::loop` (src/pset2/cotamer.cc:21-54): repeat asap phase, ready
phase, clock jump and timer phase until an outer iteration does no work,
then reset `clearing_`. `rfuel` bounds the ready drain, `ofuel` the outer
iterations; `none` means the fuel ran out before the loop returned. -/
def loopGo (eff : Nat → DriverSt → DriverSt) (rfuel : Nat) :
    Nat → DriverSt → Option DriverSt
  | 0, _ => none
  | ofuel + 1, s =>
    let aAgain := !s.asap.isEmpty
    let s1 : DriverSt :=
      { s with ready := asapDrain s.asap s.ready, asap := [] }
    match readyPhaseA eff rfuel s1 with
    | none => none
    | some (s2, n, _) =>
      let rAgain := decide (0 < n)
      let s3 : DriverSt := { s2 with timers := cullT s2.timers }
      let s4 : DriverSt :=
        if s3.asap.isEmpty ∧ ¬ s3.timers.isEmpty then
          { s3 with now := (s3.timers.headD (0, [])).1 }
        else s3
      let td := timerDrain s4.now s4.timers s4.ready
      let s5 : DriverSt := { s4 with timers := td.1, ready := td.2.1 }
      if aAgain || rAgain || td.2.2 then loopGo eff rfuel ofuel s5
      else some { s5 with clearing := false }

/-- C9: when the ready queue, the asap queue and the timer heap are all
empty on entry, `loop()` returns after a single outer iteration with the
queues and clock untouched and `clearing_` reset; if the driver was not
clearing the state is bit-for-bit unchanged, so a second `loop()` is a
no-op; and `clear()` followed by `loop()` also terminates, returning the
same quiesced state. -/
theorem c9_loop_quiesces (eff : Nat → DriverSt → DriverSt) (rfuel : Nat)
    (s : DriverSt) (h : s.ready = [] ∧ s.asap = [] ∧ s.timers = []) :
    (loopGo eff rfuel 1 s
      = some ⟨false, [], [], [], s.now⟩)
    ∧ (s.clearing = false → loopGo eff rfuel 1 s = some s)
    ∧ (loopGo eff rfuel 1 (clearDrv s) = some ⟨false, [], [], [], s.now⟩)
    ∧ (loopGo eff rfuel 1 ⟨false, [], [], [], s.now⟩
        = some ⟨false, [], [], [], s.now⟩) := by
  obtain ⟨c, rd, a, tm, n⟩ := s
  obtain ⟨h1, h2, h3⟩ := h
  dsimp only at h1 h2 h3
  subst h1
  subst h2
  subst h3
  have hbase : ∀ c' : Bool, loopGo eff rfuel 1 ⟨c', [], [], [], n⟩
      = some ⟨false, [], [], [], n⟩ := by
    intro c'
    rw [loopGo]
    simp [asapDrain, readyPhaseA, cullT, timerDrain]
  refine ⟨hbase c, ?_, ?_, hbase false⟩
  · intro hc
    subst hc
    exact hbase false
  · have hclear : clearDrv ⟨c, [], [], [], n⟩ = ⟨true, [], [], [], n⟩ := by
      simp [clearDrv, asapDrain]
    rw [hclear]
    exact hbase true

/-- Witness for C9 on a concrete quiesced driver state. -/
theorem c9_loop_quiesces_witness :
    ((⟨true, [], [], [], 42⟩ : DriverSt).ready = []
      ∧ (⟨true, [], [], [], 42⟩ : DriverSt).asap = []
      ∧ (⟨true, [], [], [], 42⟩ : DriverSt).timers = [])
    ∧ loopGo (fun _ s => s) 3 1 ⟨true, [], [], [], 42⟩
        = some ⟨false, [], [], [], 42⟩ :=
  ⟨⟨rfl, rfl, rfl⟩,
    (c9_loop_quiesces (fun _ s => s) 3 ⟨true, [], [], [], 42⟩
      ⟨rfl, rfl, rfl⟩).1⟩

/-! ### The timer heap (claim C7)

Model of `driver_timers` (src/pset2/detail/cotamer_timers.hh) at the
default arity 4 (the instantiation `detail::driver_timers<> timed_` of
src/pset2/cotamer.hh:569). An entry `trec` is `(when, order)`; `ord` in
the model is the unwrapped insertion counter (the ghost true count), and
every comparison reduces it modulo `2^32` exactly as the stored
`circular_int<unsigned>` does, so only the wrapped value is ever
observed. The payload plays no role in the ordering; culling at an
arbitrary position is an operation of the model (`hard_cull` is invoked by
`pop_trigger` at the root, by `cull` at the root, and by the randomized
eviction in `emplace` at an arbitrary index, so arbitrary-position culls
cover all callers). -/

/-- `2^32`, the width of `circular_int<unsigned>`. -/
def fullW : Nat := 4294967296

/-- `2^31`. -/
def halfW : Nat := 2147483648

/-- `circular_int::operator<=>` less branch
(src/pset2/circular_int.hh:134-141): the unsigned difference of the stored
values, cast to signed, is negative — i.e. the wrapped difference is at
least `2^31`. -/
def circLess (a b : Nat) : Bool :=
  decide (halfW ≤ (a % fullW + (fullW - b % fullW)) % fullW)

/-- `driver_timers::trec` (src/pset2/detail/cotamer_timers.hh:24-30)
restricted to its ordering fields. `ord` is the unwrapped counter. -/
structure Trec where
  when : Int
  ord : Nat
deriving Repr, DecidableEq

/-- The default trec used by the `getD` list accesses of the model; every
access the code performs is in bounds, so it is never read. -/
def dflt : Trec := ⟨0, 0⟩

/-- `trec::operator<` (src/pset2/detail/cotamer_timers.hh:72-75):
lexicographic on `(when, order)` with the circular order comparison. -/
def Trec.lt (a b : Trec) : Bool :=
  decide (a.when < b.when) || (decide (a.when = b.when) && circLess a.ord b.ord)

/-- The specification-side order: lexicographic `(when, unwrapped ord)`.
The bridge lemma shows `trec::operator<` agrees with it whenever the two
counters are less than `2^31` apart. -/
def keyLt (a b : Trec) : Prop :=
  a.when < b.when ∨ (a.when = b.when ∧ a.ord < b.ord)

instance (a b : Trec) : Decidable (keyLt a b) := by
  unfold keyLt
  infer_instance

/-- `heap_parent` at arity 4 (src/pset2/detail/cotamer_timers.hh:77-80):
`i / 4`. -/
def heapParent (i : Nat) : Nat := i / 4

/-- `heap_first_child` at arity 4 (lines 82-85): `4 i`, except `1` at the
root. -/
def heapFirstChild (i : Nat) : Nat := i * 4 + (if i = 0 then 1 else 0)

/-- `heap_last_child` at arity 4 (lines 87-91): one past the last child,
clamped to the size. -/
def heapLastChild (sz i : Nat) : Nat := min (i * 4 + 4) sz

/-- Swap the entries at `i` and `j` (`std::swap(ts_[i], ts_[j])`). -/
def lswap (ts : List Trec) (i j : Nat) : List Trec :=
  (ts.set i (ts.getD j dflt)).set j (ts.getD i dflt)

/-- The sift-up loop of `emplace` (lines 134-142): while not at the root
and less than the parent, swap with the parent. -/
def siftUp (ts : List Trec) (pos : Nat) : List Trec :=
  if pos = 0 then ts
  else if Trec.lt (ts.getD pos dflt) (ts.getD (heapParent pos) dflt) then
    siftUp (lswap ts pos (heapParent pos)) (heapParent pos)
  else ts
termination_by pos
decreasing_by
  simp only [heapParent]
  omega

/-- The inner for-loop of `hard_cull`'s sift-down (lines 173-180): the
index of the smallest among `pos` and its children. -/
def minChild (ts : List Trec) (pos : Nat) : Nat :=
  (List.range' (heapFirstChild pos)
    (heapLastChild ts.length pos - heapFirstChild pos)).foldl
    (fun sm t => if Trec.lt (ts.getD t dflt) (ts.getD sm dflt) then t else sm)
    pos

/-- Any candidate returned by the `minChild` fold is `pos` itself or a
child index of `pos` within the list. -/
theorem minChild_cases (ts : List Trec) (pos : Nat) :
    minChild ts pos = pos
    ∨ (heapFirstChild pos ≤ minChild ts pos
        ∧ minChild ts pos < heapLastChild ts.length pos) := by
  unfold minChild
  have hgen : ∀ (l : List Nat) (acc : Nat),
      (∀ t ∈ l, heapFirstChild pos ≤ t ∧ t < heapLastChild ts.length pos) →
      (acc = pos
        ∨ (heapFirstChild pos ≤ acc ∧ acc < heapLastChild ts.length pos)) →
      (l.foldl (fun sm t =>
          if Trec.lt (ts.getD t dflt) (ts.getD sm dflt) then t else sm) acc
            = pos
        ∨ (heapFirstChild pos ≤ l.foldl (fun sm t =>
            if Trec.lt (ts.getD t dflt) (ts.getD sm dflt) then t else sm) acc
          ∧ l.foldl (fun sm t =>
              if Trec.lt (ts.getD t dflt) (ts.getD sm dflt) then t else sm) acc
            < heapLastChild ts.length pos)) := by
    intro l
    induction l with
    | nil => intro acc _ hacc; exact hacc
    | cons t rest ih =>
      intro acc hl hacc
      simp only [List.foldl_cons]
      apply ih
      · intro u hu; exact hl u (by simp [hu])
      · split_ifs
        · exact Or.inr (hl t (by simp))
        · exact hacc
  apply hgen
  · intro t ht
    have := List.mem_range'.mp ht
    omega
  · exact Or.inl rfl

/-- The sift-down loop of `hard_cull` (lines 172-185): find the smallest
child; stop when it is `pos`, else swap and continue there. -/
def siftDown (ts : List Trec) (pos : Nat) : List Trec :=
  if minChild ts pos = pos then ts
  else siftDown (lswap ts pos (minChild ts pos)) (minChild ts pos)
termination_by ts.length - pos
decreasing_by
  rename_i hne
  rcases minChild_cases ts pos with h | ⟨h1, h2⟩
  · exact absurd h hne
  · simp only [lswap, List.length_set, heapFirstChild, heapLastChild] at *
    omega

/-- The do-while sift-up branch of `hard_cull` (lines 187-193): swap with
the parent first, then continue while not at the root and still less than
the parent. -/
def siftUpFrom (ts : List Trec) (pos : Nat) : List Trec :=
  if heapParent pos ≠ 0
      ∧ Trec.lt ((lswap ts pos (heapParent pos)).getD (heapParent pos) dflt)
          ((lswap ts pos (heapParent pos)).getD
            (heapParent (heapParent pos)) dflt) then
    siftUpFrom (lswap ts pos (heapParent pos)) (heapParent pos)
  else lswap ts pos (heapParent pos)
termination_by pos
decreasing_by
  rename_i hcond
  have h1 : heapParent pos ≠ 0 := hcond.1
  simp only [heapParent] at h1 ⊢
  omega

/-- The heap state: the entry array and the `order_` counter (the `rand_`
seed only chooses which positions the randomized eviction probes and
`tcap_` is allocation bookkeeping; both are covered by letting the cull
operation pick any position). -/
structure DriverTimers where
  ts : List Trec
  order : Nat
deriving Repr, DecidableEq

/-- `driver_timers::emplace` (lines 122-156): append `(when, ++order_)`,
sift up from the last slot. The randomized eviction of empty entries that
follows is a sequence of `hard_cull` calls at arbitrary positions and is
represented by explicit cull operations. -/
def DriverTimers.emplace (w : Int) (s : DriverTimers) : DriverTimers :=
  let o := s.order + 1
  let ts1 := s.ts ++ [⟨w, o⟩]
  { ts := siftUp ts1 (ts1.length - 1), order := o }

/-- `driver_timers::hard_cull` (lines 158-194): swap the victim with the
last entry, drop the last, then restore the heap by sifting down (when the
moved entry is not less than its parent, or at the root) or by the
swap-first sift-up otherwise. Out-of-range positions leave the heap alone
(the source asserts `sz_ != 0` and is only called with `pos < sz_`). -/
def DriverTimers.hardCull (pos : Nat) (s : DriverTimers) : DriverTimers :=
  if pos < s.ts.length then
    if pos = s.ts.length - 1 then { s with ts := s.ts.dropLast }
    else
      if pos = 0
          || ! Trec.lt
            (((lswap s.ts (s.ts.length - 1) pos).dropLast).getD pos dflt)
            (((lswap s.ts (s.ts.length - 1) pos).dropLast).getD
              (heapParent pos) dflt) then
        { s with ts := siftDown ((lswap s.ts (s.ts.length - 1) pos).dropLast) pos }
      else
        { s with ts := siftUpFrom ((lswap s.ts (s.ts.length - 1) pos).dropLast) pos }
  else s

/-- The heap operations: an insertion with a given time point, and a
`hard_cull` at a given position (covering `pop_trigger`'s root cull,
`cull`'s root culls, and `emplace`'s randomized eviction). -/
inductive HOp where
  | emplace (w : Int)
  | cull (pos : Nat)
deriving Repr, DecidableEq

def applyHOp (op : HOp) (s : DriverTimers) : DriverTimers :=
  match op with
  | .emplace w => s.emplace w
  | .cull pos => s.hardCull pos

def runHOps (ops : List HOp) (s : DriverTimers) : DriverTimers :=
  ops.foldl (fun s op => applyHOp op s) s

/-- The empty heap (`driver_timers()` default construction). -/
def emptyTimers : DriverTimers := ⟨[], 0⟩

/-- Two counters are in span when they are less than `2^31` apart. -/
def SpanOk (a b : Nat) : Prop :=
  (a ≤ b → b - a < halfW) ∧ (b ≤ a → a - b < halfW)

/-- The bridge: on counters less than `2^31` apart, the modular signed
comparison of the stored 32-bit values agrees with the order of the
unwrapped counters. -/
theorem circLess_iff (a b : Nat) (h : SpanOk a b) :
    (circLess a b = true ↔ a < b) := by
  obtain ⟨h1, h2⟩ := h
  simp only [circLess, decide_eq_true_eq, fullW, halfW] at *
  omega

theorem keyLt_trans {a b c : Trec} (h1 : keyLt a b) (h2 : keyLt b c) :
    keyLt a c := by
  unfold keyLt at *
  rcases h1 with h | ⟨e, h⟩ <;> rcases h2 with g | ⟨f, g⟩
  · exact Or.inl (h.trans g)
  · exact Or.inl (f ▸ h)
  · exact Or.inl (e ▸ g)
  · exact Or.inr ⟨e.trans f, h.trans g⟩

theorem keyLt_asymm {a b : Trec} (h : keyLt a b) : ¬ keyLt b a := by
  unfold keyLt at *
  intro g
  rcases h with h | ⟨e, h⟩ <;> rcases g with g | ⟨f, g⟩ <;> omega

theorem keyLt_irrefl (a : Trec) : ¬ keyLt a a := by
  unfold keyLt
  omega

/-- Not-less is transitive ("is at least" composes). -/
theorem nkeyLt_trans {a b c : Trec} (h1 : ¬ keyLt a b) (h2 : ¬ keyLt b c) :
    ¬ keyLt a c := by
  unfold keyLt at *
  omega

/-- `a` below `b`, `c` at least `b`: then `a` below `c`. -/
theorem keyLt_of_keyLt_of_nkeyLt {a b c : Trec} (h1 : keyLt a b)
    (h2 : ¬ keyLt c b) : keyLt a c := by
  unfold keyLt at *
  omega

/-- `trec::operator<` computes the specification order whenever the two
unwrapped counters are in span. -/
theorem trecLt_iff (a b : Trec) (h : SpanOk a.ord b.ord) :
    (Trec.lt a b = true ↔ keyLt a b) := by
  unfold Trec.lt keyLt
  rw [Bool.or_eq_true, Bool.and_eq_true, decide_eq_true_eq, decide_eq_true_eq,
    circLess_iff a.ord b.ord h]

/-- Every pair of entries of the list is in span. -/
def Spanned (ts : List Trec) : Prop :=
  ∀ a ∈ ts, ∀ b ∈ ts, SpanOk a.ord b.ord

/-- The heap property at arity 4: no entry is below its parent. -/
def HeapProp (ts : List Trec) : Prop :=
  ∀ i, 0 < i → i < ts.length →
    ¬ keyLt (ts.getD i dflt) (ts.getD (heapParent i) dflt)

/-- Every entry's counter is positive and at most the running counter. -/
def OrdBound (s : DriverTimers) : Prop :=
  ∀ a ∈ s.ts, 0 < a.ord ∧ a.ord ≤ s.order

/-- No two entries share a counter. -/
def NodupOrds (ts : List Trec) : Prop := (ts.map Trec.ord).Nodup

theorem length_lswap (ts : List Trec) (i j : Nat) :
    (lswap ts i j).length = ts.length := by
  simp [lswap]

theorem getD_lswap (ts : List Trec) (i j k : Nat) (hi : i < ts.length)
    (hj : j < ts.length) :
    (lswap ts i j).getD k dflt
      = if k = j then ts.getD i dflt
        else if k = i then ts.getD j dflt
        else ts.getD k dflt := by
  by_cases hk : k < ts.length
  · have hk2 : k < (lswap ts i j).length := by
      rw [length_lswap]; omega
    have h1 : (lswap ts i j).getD k dflt = (lswap ts i j)[k] :=
      List.getD_eq_getElem _ _ hk2
    rw [h1]
    simp only [lswap, List.getElem_set]
    by_cases e1 : k = j
    · subst e1
      simp
    · by_cases e2 : k = i
      · subst e2
        simp [e1, Ne.symm e1]
      · simp [e1, e2, Ne.symm e1, Ne.symm e2]
        rw [List.getElem?_eq_getElem hk, Option.getD_some]
  · have hknj : k ≠ j := by omega
    have hkni : k ≠ i := by omega
    rw [if_neg hknj, if_neg hkni, List.getD_eq_default, List.getD_eq_default]
    · omega
    · rw [length_lswap]; omega

theorem mem_lswap {x : Trec} (ts : List Trec) (i j : Nat)
    (hi : i < ts.length) (hj : j < ts.length) (h : x ∈ lswap ts i j) :
    x ∈ ts := by
  unfold lswap at h
  rcases List.mem_or_eq_of_mem_set h with h2 | h2
  · rcases List.mem_or_eq_of_mem_set h2 with h3 | h3
    · exact h3
    · subst h3
      rw [List.getD_eq_getElem _ _ hj]
      exact List.getElem_mem _
  · subst h2
    rw [List.getD_eq_getElem _ _ hi]
    exact List.getElem_mem _

theorem set_getD_self (ts : List Trec) (i : Nat) :
    ts.set i (ts.getD i dflt) = ts := by
  apply List.ext_getElem
  · simp
  · intro n h1 h2
    rw [List.getElem_set]
    split_ifs with h
    · subst h
      exact List.getD_eq_getElem _ _ h2
    · rfl

theorem lswap_perm (ts : List Trec) (i j : Nat) (hi : i < ts.length)
    (hj : j < ts.length) : (lswap ts i j).Perm ts := by
  by_cases hij : i = j
  · subst hij
    unfold lswap
    rw [set_getD_self]
    rw [show ts.set i (ts.getD i dflt) = ts from set_getD_self ts i]
  · rw [List.perm_iff_count]
    intro a
    unfold lswap
    have hsl : (ts.set i (ts.getD j dflt)).length = ts.length := by simp
    have c2 := List.count_set (a := ts.getD i dflt) (b := a)
      (l := ts.set i (ts.getD j dflt)) (i := j) (by omega)
    have c1 := List.count_set (a := ts.getD j dflt) (b := a) (l := ts) (i := i) hi
    have hjs : j < (ts.set i (ts.getD j dflt)).length := by omega
    have hset_j : (ts.set i (ts.getD j dflt))[j] = ts.getD j dflt := by
      rw [List.getElem_set, if_neg hij, ← List.getD_eq_getElem _ _ hj]
    rw [hset_j] at c2
    have hti : ts[i] = ts.getD i dflt := (List.getD_eq_getElem _ _ hi).symm
    rw [hti] at c1
    have hmemi : ts.getD i dflt ∈ ts := by
      rw [List.getD_eq_getElem _ _ hi]; exact List.getElem_mem _
    have hmemj : ts.getD j dflt ∈ ts := by
      rw [List.getD_eq_getElem _ _ hj]; exact List.getElem_mem _
    have hci : (ts.getD i dflt == a) = true → 1 ≤ ts.count a := by
      intro h
      rw [beq_iff_eq] at h
      subst h
      exact List.count_pos_iff.mpr hmemi
    have hcj : (ts.getD j dflt == a) = true → 1 ≤ ts.count a := by
      intro h
      rw [beq_iff_eq] at h
      subst h
      exact List.count_pos_iff.mpr hmemj
    by_cases bi : (ts.getD i dflt == a) = true <;>
      by_cases bj : (ts.getD j dflt == a) = true
    · rw [if_pos bi, if_pos bj] at c1
      rw [if_pos bj, if_pos bi] at c2
      have := hci bi
      omega
    · rw [if_pos bi, if_neg bj] at c1
      rw [if_neg bj, if_pos bi] at c2
      have := hci bi
      omega
    · rw [if_neg bi, if_pos bj] at c1
      rw [if_pos bj, if_neg bi] at c2
      have := hcj bj
      omega
    · rw [if_neg bi, if_neg bj] at c1
      rw [if_neg bj, if_neg bi] at c2
      omega

/-- In a heap, the root is at most every entry. -/
theorem heapProp_root_min (ts : List Trec) (hh : HeapProp ts) :
    ∀ k, k < ts.length → ¬ keyLt (ts.getD k dflt) (ts.getD 0 dflt) := by
  intro k
  induction k using Nat.strong_induction_on with
  | _ k ih =>
    intro hk
    rcases Nat.eq_zero_or_pos k with h0 | hpos
    · subst h0
      exact keyLt_irrefl _
    · have hp : heapParent k < k := by
        simp only [heapParent]; omega
      exact nkeyLt_trans (hh k hpos hk) (ih (heapParent k) hp (hp.trans hk))

theorem getD_mem (ts : List Trec) (k : Nat) (h : k < ts.length) :
    ts.getD k dflt ∈ ts := by
  rw [List.getD_eq_getElem _ _ h]
  exact List.getElem_mem _

theorem spanned_of_subset {ts us : List Trec} (h : ∀ x ∈ ts, x ∈ us)
    (hs : Spanned us) : Spanned ts :=
  fun a ha b hb => hs a (h a ha) b (h b hb)

theorem spanned_lswap (ts : List Trec) (i j : Nat) (hi : i < ts.length)
    (hj : j < ts.length) (hs : Spanned ts) : Spanned (lswap ts i j) :=
  spanned_of_subset (fun _ hx => mem_lswap ts i j hi hj hx) hs

/-- Under span, a true machine comparison of two in-range entries is a
specification-order comparison. -/
theorem trecLt_true {ts : List Trec} (hsp : Spanned ts) {i j : Nat}
    (hi : i < ts.length) (hj : j < ts.length)
    (h : Trec.lt (ts.getD i dflt) (ts.getD j dflt) = true) :
    keyLt (ts.getD i dflt) (ts.getD j dflt) :=
  (trecLt_iff _ _
    ((hsp _ (getD_mem ts i hi) _ (getD_mem ts j hj)))).mp h

/-- Under span, a false machine comparison of two in-range entries
refutes the specification order. -/
theorem trecLt_false {ts : List Trec} (hsp : Spanned ts) {i j : Nat}
    (hi : i < ts.length) (hj : j < ts.length)
    (h : ¬ Trec.lt (ts.getD i dflt) (ts.getD j dflt) = true) :
    ¬ keyLt (ts.getD i dflt) (ts.getD j dflt) :=
  fun hk => h ((trecLt_iff _ _
    ((hsp _ (getD_mem ts i hi) _ (getD_mem ts j hj)))).mpr hk)

theorem heapParent_lt {i : Nat} (h : i ≠ 0) : heapParent i < i := by
  simp only [heapParent]
  omega

theorem heapParent_le (i : Nat) : heapParent i ≤ i := by
  simp only [heapParent]
  omega

theorem lt_of_heapParent_eq {i p : Nat} (h : heapParent i = p) (hi : i ≠ 0) :
    p < i := by
  subst h
  exact heapParent_lt hi

/-- The sift-up invariant: the heap property holds everywhere except
possibly on the edge from `pos` to its parent, and the children of `pos`
are already no less than `pos`'s parent. -/
def UpInv (ts : List Trec) (pos : Nat) : Prop :=
  (∀ i, 0 < i → i < ts.length → i ≠ pos →
     ¬ keyLt (ts.getD i dflt) (ts.getD (heapParent i) dflt))
  ∧ (pos ≠ 0 → ∀ j, 0 < j → j < ts.length → heapParent j = pos →
     ¬ keyLt (ts.getD j dflt) (ts.getD (heapParent pos) dflt))

theorem siftUp_length (ts : List Trec) (pos : Nat) :
    (siftUp ts pos).length = ts.length := by
  induction ts, pos using siftUp.induct with
  | case1 ts =>
    rw [siftUp, if_pos rfl]
  | case2 ts pos h1 h2 ih =>
    rw [siftUp, if_neg h1, if_pos h2]
    rw [ih, length_lswap]
  | case3 ts pos h1 h2 =>
    rw [siftUp, if_neg h1, if_neg h2]

theorem siftUp_perm (ts : List Trec) (pos : Nat) (hpos : pos < ts.length) :
    (siftUp ts pos).Perm ts := by
  induction ts, pos using siftUp.induct with
  | case1 ts =>
    rw [siftUp, if_pos rfl]
  | case2 ts pos h1 h2 ih =>
    rw [siftUp, if_neg h1, if_pos h2]
    have hp : heapParent pos < ts.length := by
      simp only [heapParent] at *
      omega
    have hp2 : heapParent pos < (lswap ts pos (heapParent pos)).length := by
      rw [length_lswap]
      exact hp
    exact (ih hp2).trans (lswap_perm ts pos (heapParent pos) hpos hp)
  | case3 ts pos h1 h2 =>
    rw [siftUp, if_neg h1, if_neg h2]

theorem siftUp_heapProp (ts : List Trec) (pos : Nat) :
    pos < ts.length → Spanned ts → UpInv ts pos →
    HeapProp (siftUp ts pos) := by
  induction ts, pos using siftUp.induct with
  | case1 ts =>
    intro hlen hsp hinv
    rw [siftUp, if_pos rfl]
    intro i hi0 hil
    exact hinv.1 i hi0 hil (by omega)
  | case2 ts pos h1 h2 ih =>
    intro hlen hsp hinv
    rw [siftUp, if_neg h1, if_pos h2]
    have hplt : heapParent pos < pos := by
      simp only [heapParent]; omega
    have hp : heapParent pos < ts.length := hplt.trans hlen
    have hkxy : keyLt (ts.getD pos dflt) (ts.getD (heapParent pos) dflt) :=
      trecLt_true hsp hlen hp h2
    have hlen2 : heapParent pos < (lswap ts pos (heapParent pos)).length := by
      rw [length_lswap]; exact hp
    have hsp2 : Spanned (lswap ts pos (heapParent pos)) :=
      spanned_lswap ts pos (heapParent pos) hlen hp hsp
    refine ih hlen2 hsp2 ⟨?_, ?_⟩
    · -- part (a) of the invariant, at the parent
      intro i hi0 hil hip
      rw [length_lswap] at hil
      have hgi := getD_lswap ts pos (heapParent pos) i hlen hp
      have hgp := getD_lswap ts pos (heapParent pos) (heapParent i) hlen hp
      by_cases hipos : i = pos
      · -- the displaced parent value, now at pos, against the risen value
        subst hipos
        rw [hgi, hgp]
        rw [if_neg (by omega), if_pos rfl]
        have hpar : heapParent i = heapParent i := rfl
        rw [if_pos rfl]
        exact keyLt_asymm hkxy
      · by_cases hpari : heapParent i = pos
        · -- a child of pos: its new parent holds the old parent value
          rw [hgi, hgp]
          have hipos2 : pos < i := by
            simp only [heapParent] at hpari ⊢
            omega
          rw [if_neg (by omega), if_neg (by omega), hpari, if_neg (by omega),
            if_pos rfl]
          exact hinv.2 h1 i hi0 hil hpari
        · by_cases hparp : heapParent i = heapParent pos
          · -- another child of the parent, against the risen value
            rw [hgi, hgp]
            rw [if_neg hip, if_neg hipos, hparp, if_pos rfl]
            have hia : ¬ keyLt (ts.getD i dflt)
                (ts.getD (heapParent i) dflt) :=
              hinv.1 i hi0 hil hipos
            rw [hparp] at hia
            intro hc
            exact hia (keyLt_trans hc hkxy)
          · -- an edge untouched by the swap
            rw [hgi, hgp]
            rw [if_neg hip, if_neg hipos, if_neg hparp, if_neg hpari]
            exact hinv.1 i hi0 hil hipos
    · -- part (b) of the invariant, at the parent
      intro hp0 j hj0 hjl hpj
      rw [length_lswap] at hjl
      have hpplt : heapParent (heapParent pos) < heapParent pos :=
        heapParent_lt hp0
      have hjgt : heapParent pos < j := lt_of_heapParent_eq hpj (by omega)
      have e1 : (lswap ts pos (heapParent pos)).getD
            (heapParent (heapParent pos)) dflt
          = ts.getD (heapParent (heapParent pos)) dflt := by
        rw [getD_lswap ts pos (heapParent pos) _ hlen hp,
          if_neg (show ¬ heapParent (heapParent pos) = heapParent pos
            by omega),
          if_neg (show ¬ heapParent (heapParent pos) = pos by omega)]
      rw [e1]
      have hppar : ¬ keyLt (ts.getD (heapParent pos) dflt)
          (ts.getD (heapParent (heapParent pos)) dflt) :=
        hinv.1 (heapParent pos) (by omega) hp (by omega)
      by_cases hjpos : j = pos
      · subst hjpos
        have e2 : (lswap ts j (heapParent j)).getD j dflt
            = ts.getD (heapParent j) dflt := by
          rw [getD_lswap ts j (heapParent j) _ hlen hp,
            if_neg (show ¬ j = heapParent j by omega), if_pos rfl]
        rw [e2]
        exact hppar
      · have e2 : (lswap ts pos (heapParent pos)).getD j dflt
            = ts.getD j dflt := by
          rw [getD_lswap ts pos (heapParent pos) _ hlen hp,
            if_neg (show ¬ j = heapParent pos by omega),
            if_neg hjpos]
        rw [e2]
        have hjpar : ¬ keyLt (ts.getD j dflt)
            (ts.getD (heapParent j) dflt) :=
          hinv.1 j hj0 hjl hjpos
        rw [hpj] at hjpar
        exact nkeyLt_trans hjpar hppar
  | case3 ts pos h1 h2 =>
    intro hlen hsp hinv
    rw [siftUp, if_neg h1, if_neg h2]
    intro i hi0 hil
    by_cases hipos : i = pos
    · subst hipos
      have hp : heapParent i < ts.length := by
        simp only [heapParent] at *
        omega
      exact trecLt_false hsp hil hp h2
    · exact hinv.1 i hi0 hil hipos

/-- The scan range of `minChild` holds exactly the in-bounds children of
`pos`. -/
theorem mem_childRange (sz pos t : Nat) :
    (t ∈ List.range' (heapFirstChild pos)
        (heapLastChild sz pos - heapFirstChild pos))
      ↔ (heapParent t = pos ∧ 0 < t ∧ t < sz) := by
  rw [List.mem_range'_1]
  by_cases hp : pos = 0
  · subst hp
    simp only [heapFirstChild, heapLastChild, heapParent, if_true]
    omega
  · simp only [heapFirstChild, heapLastChild, heapParent, hp, if_false]
    omega

/-- What the `minChild` scan returns: either `pos` (no child is smaller),
or the index of a child strictly below `ts[pos]`; in both cases no
in-bounds child is below the returned entry. -/
theorem minChild_spec (ts : List Trec) (pos : Nat) (hsp : Spanned ts)
    (hpos : pos < ts.length) :
    (minChild ts pos = pos
      ∨ (heapParent (minChild ts pos) = pos ∧ 0 < minChild ts pos
         ∧ minChild ts pos < ts.length
         ∧ keyLt (ts.getD (minChild ts pos) dflt) (ts.getD pos dflt)))
    ∧ ∀ t, heapParent t = pos → 0 < t → t < ts.length →
        ¬ keyLt (ts.getD t dflt) (ts.getD (minChild ts pos) dflt) := by
  have hgen : ∀ (l : List Nat) (acc : Nat),
      (∀ t ∈ l, heapParent t = pos ∧ 0 < t ∧ t < ts.length) →
      (acc = pos
        ∨ (heapParent acc = pos ∧ 0 < acc ∧ acc < ts.length
           ∧ keyLt (ts.getD acc dflt) (ts.getD pos dflt))) →
      (let r := l.foldl (fun sm t =>
          if Trec.lt (ts.getD t dflt) (ts.getD sm dflt) then t else sm) acc
       (r = pos
         ∨ (heapParent r = pos ∧ 0 < r ∧ r < ts.length
            ∧ keyLt (ts.getD r dflt) (ts.getD pos dflt)))
       ∧ (∀ t ∈ l, ¬ keyLt (ts.getD t dflt) (ts.getD r dflt))
       ∧ ¬ keyLt (ts.getD acc dflt) (ts.getD r dflt)) := by
    intro l
    induction l with
    | nil =>
      intro acc hl hacc
      exact ⟨hacc, by simp, keyLt_irrefl _⟩
    | cons t rest ih =>
      intro acc hl hacc
      obtain ⟨hct, ht0, htl⟩ := hl t (by simp)
      have hacl : acc < ts.length := by
        rcases hacc with h | ⟨_, _, h, _⟩
        · omega
        · exact h
      simp only [List.foldl_cons]
      by_cases hlt : Trec.lt (ts.getD t dflt) (ts.getD acc dflt) = true
      · -- the new candidate wins
        have hklt : keyLt (ts.getD t dflt) (ts.getD acc dflt) :=
          trecLt_true hsp htl hacl hlt
        have hacc2 : t = pos
            ∨ (heapParent t = pos ∧ 0 < t ∧ t < ts.length
               ∧ keyLt (ts.getD t dflt) (ts.getD pos dflt)) := by
          rcases hacc with h | ⟨_, _, _, h⟩
          · subst h
            exact Or.inr ⟨hct, ht0, htl, hklt⟩
          · exact Or.inr ⟨hct, ht0, htl, keyLt_trans hklt h⟩
        rw [if_pos hlt]
        obtain ⟨hr1, hr2, hr3⟩ := ih t (fun u hu => hl u (by simp [hu])) hacc2
        refine ⟨hr1, ?_, ?_⟩
        · intro u hu
          rcases List.mem_cons.mp hu with h | h
          · subst h
            exact hr3
          · exact hr2 u h
        · intro hc
          exact hr3 (keyLt_trans hklt hc)
      · -- the accumulator survives
        have hnk : ¬ keyLt (ts.getD t dflt) (ts.getD acc dflt) :=
          trecLt_false hsp htl hacl hlt
        rw [if_neg hlt]
        obtain ⟨hr1, hr2, hr3⟩ := ih acc (fun u hu => hl u (by simp [hu])) hacc
        refine ⟨hr1, ?_, hr3⟩
        intro u hu
        rcases List.mem_cons.mp hu with h | h
        · subst h
          exact nkeyLt_trans hnk hr3
        · exact hr2 u h
  have h := hgen (List.range' (heapFirstChild pos)
      (heapLastChild ts.length pos - heapFirstChild pos)) pos
    (fun t ht => (mem_childRange ts.length pos t).mp ht) (Or.inl rfl)
  refine ⟨h.1, ?_⟩
  intro t hct ht0 htl
  exact h.2.1 t ((mem_childRange ts.length pos t).mpr ⟨hct, ht0, htl⟩)

/-- The sift-down invariant: the heap property can fail only on the edges
from the children of `pos` up to `pos`; additionally the children of
`pos` are no less than `pos`'s parent (the grandparent edges survive the
replacement of the entry at `pos`). -/
def DownInv (ts : List Trec) (pos : Nat) : Prop :=
  (∀ i, 0 < i → i < ts.length → heapParent i ≠ pos →
     ¬ keyLt (ts.getD i dflt) (ts.getD (heapParent i) dflt))
  ∧ (pos ≠ 0 → ∀ j, 0 < j → j < ts.length → heapParent j = pos →
     ¬ keyLt (ts.getD j dflt) (ts.getD (heapParent pos) dflt))

theorem siftDown_length (ts : List Trec) (pos : Nat) :
    (siftDown ts pos).length = ts.length := by
  induction ts, pos using siftDown.induct with
  | case1 ts pos hsm =>
    rw [siftDown]
    simp only [if_pos hsm]
  | case2 ts pos hsm ih =>
    rw [siftDown]
    simp only [if_neg hsm]
    rw [ih, length_lswap]

theorem siftDown_perm (ts : List Trec) (pos : Nat) :
    pos < ts.length → (siftDown ts pos).Perm ts := by
  induction ts, pos using siftDown.induct with
  | case1 ts pos hsm =>
    intro hpos
    rw [siftDown]
    simp only [if_pos hsm]
    exact List.Perm.refl ts
  | case2 ts pos hsm ih =>
    intro hpos
    rw [siftDown]
    simp only [if_neg hsm]
    rcases minChild_cases ts pos with h | ⟨h1, h2⟩
    · exact absurd h hsm
    · have hfc : pos < heapFirstChild pos := by
        simp only [heapFirstChild]
        by_cases hp : pos = 0
        · simp [hp]
        · simp [hp]
          omega
      have hlc : heapLastChild ts.length pos ≤ ts.length := by
        simp only [heapLastChild]
        omega
      have hl : minChild ts pos < ts.length := by omega
      have hperm := lswap_perm ts pos (minChild ts pos) hpos hl
      have hl2 : minChild ts pos < (lswap ts pos (minChild ts pos)).length := by
        rw [length_lswap]
        exact hl
      exact (ih hl2).trans hperm

theorem siftDown_heapProp (ts : List Trec) (pos : Nat) :
    pos < ts.length → Spanned ts → DownInv ts pos →
    HeapProp (siftDown ts pos) := by
  induction ts, pos using siftDown.induct with
  | case1 ts pos hsm =>
    intro hpos hsp hinv
    rw [siftDown]
    simp only [if_pos hsm]
    intro i hi0 hil
    by_cases hpi : heapParent i = pos
    · have hmin := (minChild_spec ts pos hsp hpos).2 i hpi hi0 hil
      rw [hsm] at hmin
      rw [hpi]
      exact hmin
    · exact hinv.1 i hi0 hil hpi
  | case2 ts pos hsm ih =>
    intro hpos hsp hinv
    rw [siftDown]
    simp only [if_neg hsm]
    rcases (minChild_spec ts pos hsp hpos).1 with h | ⟨hc, h0, hl, hk⟩
    · exact absurd h hsm
    · have hmin := (minChild_spec ts pos hsp hpos).2
      have hsp2 : Spanned (lswap ts pos (minChild ts pos)) :=
        spanned_lswap ts pos (minChild ts pos) hpos hl hsp
      have hl2 : minChild ts pos < (lswap ts pos (minChild ts pos)).length := by
        rw [length_lswap]
        exact hl
      have hposlt : pos < minChild ts pos := lt_of_heapParent_eq hc (by omega)
      refine ih hl2 hsp2 ⟨?_, ?_⟩
      · -- part (a): only the children of the new position may be off
        intro i hi0 hil hpi
        rw [length_lswap] at hil
        have hg := getD_lswap ts pos (minChild ts pos) i hpos hl
        have hgp := getD_lswap ts pos (minChild ts pos) (heapParent i) hpos hl
        by_cases hisminC : i = minChild ts pos
        · -- the displaced entry, now at the child slot, against the
          -- risen minimum
          subst hisminC
          rw [hg, if_pos rfl, hgp, hc, if_neg (by omega), if_pos rfl]
          exact keyLt_asymm hk
        · by_cases hipos : i = pos
          · -- the entry now at pos against pos's old parent
            subst hipos
            have hi0' : i ≠ 0 := by omega
            have hplt : heapParent i < i := heapParent_lt hi0'
            rw [hg, if_neg (by omega), if_pos rfl, hgp,
              if_neg (by omega), if_neg (by omega)]
            exact hinv.2 hi0' (minChild ts i) h0 hl hc
          · by_cases hpari : heapParent i = pos
            · -- a sibling of the minimum child
              rw [hg, if_neg hisminC, if_neg hipos, hgp, hpari,
                if_neg (by omega), if_pos rfl]
              exact hmin i hpari hi0 hil
            · -- an untouched edge
              rw [hg, if_neg hisminC, if_neg hipos, hgp,
                if_neg (show ¬ heapParent i = minChild ts pos from hpi),
                if_neg hpari]
              exact hinv.1 i hi0 hil hpari
      · -- part (b): children of the minimum child against its parent pos
        intro hm0 j hj0 hjl hpj
        rw [length_lswap] at hjl
        have hjgt : minChild ts pos < j := lt_of_heapParent_eq hpj (by omega)
        have hgj := getD_lswap ts pos (minChild ts pos) j hpos hl
        have hgp2 := getD_lswap ts pos (minChild ts pos)
          (heapParent (minChild ts pos)) hpos hl
        rw [hgj, if_neg (by omega), if_neg (by omega), hgp2, hc,
          if_neg (by omega), if_pos rfl]
        have hja : ¬ keyLt (ts.getD j dflt)
            (ts.getD (heapParent j) dflt) :=
          hinv.1 j hj0 hjl (by omega)
        rw [hpj] at hja
        exact hja

/-- When entered under its caller's guard (not at the root, and the moved
entry is below its parent), the swap-first do-while loop computes exactly
what the sift-up loop computes. -/
theorem siftUpFrom_eq_siftUp (ts : List Trec) (pos : Nat) :
    pos ≠ 0 →
    Trec.lt (ts.getD pos dflt) (ts.getD (heapParent pos) dflt) = true →
    siftUpFrom ts pos = siftUp ts pos := by
  induction ts, pos using siftUpFrom.induct with
  | case1 ts pos hcond ih =>
    intro h0 hlt
    rw [siftUpFrom, if_pos hcond]
    rw [siftUp, if_neg h0, if_pos hlt]
    exact ih hcond.1 hcond.2
  | case2 ts pos hcond =>
    intro h0 hlt
    rw [siftUpFrom, if_neg hcond]
    rw [siftUp, if_neg h0, if_pos hlt]
    rw [Classical.not_and_iff_or_not_not] at hcond
    rcases hcond with h | h
    · rw [Decidable.not_not] at h
      rw [siftUp, if_pos h]
    · rw [siftUp]
      by_cases hp0 : heapParent pos = 0
      · rw [if_pos hp0]
      · rw [if_neg hp0, if_neg h]

theorem getD_dropLast (ts : List Trec) (k : Nat) (h : k < ts.length - 1) :
    ts.dropLast.getD k dflt = ts.getD k dflt := by
  rw [List.getD_eq_getElem _ _ (by rw [List.length_dropLast]; omega),
    List.getD_eq_getElem _ _ (by omega), List.getElem_dropLast]

theorem hardCull_heapProp (s : DriverTimers) (pos : Nat)
    (hsp : Spanned s.ts) (hh : HeapProp s.ts) :
    HeapProp (s.hardCull pos).ts := by
  rw [DriverTimers.hardCull]
  by_cases h1 : pos < s.ts.length
  · rw [if_pos h1]
    by_cases h2 : pos = s.ts.length - 1
    · rw [if_pos h2]
      intro i hi0 hil
      simp only [List.length_dropLast] at hil
      have hpar : heapParent i < i := heapParent_lt (by omega)
      rw [getD_dropLast _ _ hil, getD_dropLast _ _ (by omega)]
      exact hh i hi0 (by omega)
    · rw [if_neg h2]
      have hplt : pos < s.ts.length - 1 := by omega
      have hn2 : 2 ≤ s.ts.length := by omega
      have hlast : s.ts.length - 1 < s.ts.length := by omega
      have hlen1 : ((lswap s.ts (s.ts.length - 1) pos).dropLast).length
          = s.ts.length - 1 := by
        rw [List.length_dropLast, length_lswap]
      have hget : ∀ k, k < s.ts.length - 1 →
          ((lswap s.ts (s.ts.length - 1) pos).dropLast).getD k dflt
            = if k = pos then s.ts.getD (s.ts.length - 1) dflt
              else s.ts.getD k dflt := by
        intro k hk
        rw [getD_dropLast _ _ (by rw [length_lswap]; omega),
          getD_lswap s.ts (s.ts.length - 1) pos k hlast h1]
        by_cases hkp : k = pos
        · rw [if_pos hkp, if_pos hkp]
        · rw [if_neg hkp, if_neg hkp, if_neg (show ¬ k = s.ts.length - 1
            by omega)]
      have hsp1 : Spanned ((lswap s.ts (s.ts.length - 1) pos).dropLast) := by
        refine spanned_of_subset ?_ hsp
        intro x hx
        exact mem_lswap s.ts (s.ts.length - 1) pos hlast h1
          ((List.dropLast_sublist _).subset hx)
      -- the entry now at pos against the untouched grandparent edges
      have hgpar : pos ≠ 0 → heapParent pos ≠ pos := fun h0 => by
        have := heapParent_lt h0
        omega
      have hchild : pos ≠ 0 → ∀ j, 0 < j →
          j < ((lswap s.ts (s.ts.length - 1) pos).dropLast).length →
          heapParent j = pos →
          ¬ keyLt (((lswap s.ts (s.ts.length - 1) pos).dropLast).getD j dflt)
            (((lswap s.ts (s.ts.length - 1) pos).dropLast).getD
              (heapParent pos) dflt) := by
        intro h0 j hj0 hjl hpj
        rw [hlen1] at hjl
        have hjgt : pos < j := lt_of_heapParent_eq hpj (by omega)
        have hpplt : heapParent pos < pos := heapParent_lt h0
        rw [hget j (by omega), if_neg (by omega),
          hget (heapParent pos) (by omega), if_neg (by omega)]
        have hja : ¬ keyLt (s.ts.getD j dflt)
            (s.ts.getD (heapParent j) dflt) :=
          hh j hj0 (by omega)
        rw [hpj] at hja
        exact nkeyLt_trans hja (hh pos (by omega) h1)
      by_cases h3 : (decide (pos = 0)
          || ! Trec.lt
            (((lswap s.ts (s.ts.length - 1) pos).dropLast).getD pos dflt)
            (((lswap s.ts (s.ts.length - 1) pos).dropLast).getD
              (heapParent pos) dflt)) = true
      · rw [if_pos h3]
        refine siftDown_heapProp _ pos (by omega) hsp1 ⟨?_, hchild⟩
        intro i hi0 hil hpi
        rw [hlen1] at hil
        by_cases hipos : i = pos
        · subst hipos
          rw [Bool.or_eq_true, decide_eq_true_eq, Bool.not_eq_eq_eq_not,
            Bool.not_true] at h3
          rcases h3 with h | h
          · omega
          · exact trecLt_false hsp1 (by omega) (by
              have := heapParent_le i
              omega) (by rw [h]; exact Bool.false_ne_true)
        · have hpari : heapParent i ≠ pos := hpi
          rw [hget i (by omega), if_neg hipos, hget (heapParent i) (by
              have := heapParent_le i
              omega), if_neg hpari]
          exact hh i hi0 (by omega)
      · rw [if_neg h3]
        rw [Bool.or_eq_true, decide_eq_true_eq, Bool.not_eq_eq_eq_not,
          Bool.not_true] at h3
        push_neg at h3
        obtain ⟨h0, hbtrue⟩ := h3
        have hblt : Trec.lt
            (((lswap s.ts (s.ts.length - 1) pos).dropLast).getD pos dflt)
            (((lswap s.ts (s.ts.length - 1) pos).dropLast).getD
              (heapParent pos) dflt) = true := by
          cases hb : Trec.lt
              (((lswap s.ts (s.ts.length - 1) pos).dropLast).getD pos dflt)
              (((lswap s.ts (s.ts.length - 1) pos).dropLast).getD
                (heapParent pos) dflt)
          · exact absurd hb hbtrue
          · rfl
        rw [siftUpFrom_eq_siftUp _ pos h0 hblt]
        have hpplt : heapParent pos < pos := heapParent_lt h0
        have hkx : keyLt
            (((lswap s.ts (s.ts.length - 1) pos).dropLast).getD pos dflt)
            (((lswap s.ts (s.ts.length - 1) pos).dropLast).getD
              (heapParent pos) dflt) :=
          trecLt_true hsp1 (by omega) (by omega) hblt
        rw [hget pos (by omega), if_pos rfl] at hkx
        rw [hget (heapParent pos) (by omega), if_neg (by omega)] at hkx
        refine siftUp_heapProp _ pos (by omega) hsp1 ⟨?_, hchild⟩
        intro i hi0 hil hipos
        rw [hlen1] at hil
        by_cases hpari : heapParent i = pos
        · -- a child of pos against the moved-in last entry
          have higt : pos < i := lt_of_heapParent_eq hpari (by omega)
          rw [hget i (by omega), if_neg (by omega), hget (heapParent i)
              (by
                have := heapParent_le i
                omega), hpari, if_pos rfl]
          have hiP : ¬ keyLt (s.ts.getD i dflt)
              (s.ts.getD (heapParent pos) dflt) := by
            have hja : ¬ keyLt (s.ts.getD i dflt)
                (s.ts.getD (heapParent i) dflt) := hh i hi0 (by omega)
            rw [hpari] at hja
            exact nkeyLt_trans hja (hh pos (by omega) h1)
          intro hcon
          exact hiP (keyLt_trans hcon hkx)
        · rw [hget i (by omega), if_neg hipos, hget (heapParent i)
              (by
                have := heapParent_le i
                omega), if_neg hpari]
          exact hh i hi0 (by omega)
  · rw [if_neg h1]
    exact hh

theorem siftUpFrom_perm (ts : List Trec) (pos : Nat) :
    pos < ts.length → (siftUpFrom ts pos).Perm ts := by
  induction ts, pos using siftUpFrom.induct with
  | case1 ts pos hcond ih =>
    intro hpos
    rw [siftUpFrom, if_pos hcond]
    have hp : heapParent pos < ts.length := (heapParent_le pos).trans_lt hpos
    have hp2 : heapParent pos < (lswap ts pos (heapParent pos)).length := by
      rw [length_lswap]
      exact hp
    exact (ih hp2).trans (lswap_perm ts pos (heapParent pos) hpos hp)
  | case2 ts pos hcond =>
    intro hpos
    rw [siftUpFrom, if_neg hcond]
    exact lswap_perm ts pos (heapParent pos) hpos
      ((heapParent_le pos).trans_lt hpos)

theorem getD_append_left (ts : List Trec) (x : Trec) (k : Nat)
    (h : k < ts.length) :
    (ts ++ [x]).getD k dflt = ts.getD k dflt := by
  rw [List.getD_eq_getElem _ _ (by rw [List.length_append]; omega),
    List.getD_eq_getElem _ _ h, List.getElem_append_left h]

/-- `emplace` permutes the appended list. -/
theorem emplace_perm (s : DriverTimers) (w : Int) :
    (s.emplace w).ts.Perm (s.ts ++ [⟨w, s.order + 1⟩]) := by
  rw [DriverTimers.emplace]
  have hne : (s.ts ++ [(⟨w, s.order + 1⟩ : Trec)]).length - 1
      < (s.ts ++ [(⟨w, s.order + 1⟩ : Trec)]).length := by
    rw [List.length_append]
    simp
  exact siftUp_perm _ _ hne

theorem emplace_order (s : DriverTimers) (w : Int) :
    (s.emplace w).order = s.order + 1 := rfl

/-- Every entry surviving a `hard_cull` came from the original array. -/
theorem hardCull_subset (s : DriverTimers) (pos : Nat) :
    ∀ x ∈ (s.hardCull pos).ts, x ∈ s.ts := by
  intro x hx
  rw [DriverTimers.hardCull] at hx
  by_cases h1 : pos < s.ts.length
  · rw [if_pos h1] at hx
    by_cases h2 : pos = s.ts.length - 1
    · rw [if_pos h2] at hx
      exact (List.dropLast_sublist _).subset hx
    · rw [if_neg h2] at hx
      have hplt : pos < s.ts.length - 1 := by omega
      have hlast : s.ts.length - 1 < s.ts.length := by omega
      have hmem1 : ∀ y ∈ (lswap s.ts (s.ts.length - 1) pos).dropLast,
          y ∈ s.ts := by
        intro y hy
        exact mem_lswap s.ts (s.ts.length - 1) pos hlast h1
          ((List.dropLast_sublist _).subset hy)
      have hlen1 : ((lswap s.ts (s.ts.length - 1) pos).dropLast).length
          = s.ts.length - 1 := by
        rw [List.length_dropLast, length_lswap]
      split_ifs at hx
      · exact hmem1 x
          ((siftDown_perm _ pos (by rw [hlen1]; omega)).subset hx)
      · exact hmem1 x
          ((siftUpFrom_perm _ pos (by rw [hlen1]; omega)).subset hx)
  · rw [if_neg h1] at hx
    exact hx

theorem hardCull_order (s : DriverTimers) (pos : Nat) :
    (s.hardCull pos).order = s.order := by
  rw [DriverTimers.hardCull]
  split_ifs <;> rfl

/-- `hard_cull` keeps the counters duplicate-free. -/
theorem hardCull_nodup (s : DriverTimers) (pos : Nat)
    (h : NodupOrds s.ts) : NodupOrds (s.hardCull pos).ts := by
  rw [DriverTimers.hardCull]
  unfold NodupOrds at *
  by_cases h1 : pos < s.ts.length
  · rw [if_pos h1]
    by_cases h2 : pos = s.ts.length - 1
    · rw [if_pos h2]
      rw [List.map_dropLast]
      exact (List.dropLast_sublist _).nodup h
    · rw [if_neg h2]
      have hplt : pos < s.ts.length - 1 := by omega
      have hlast : s.ts.length - 1 < s.ts.length := by omega
      have hlen1 : ((lswap s.ts (s.ts.length - 1) pos).dropLast).length
          = s.ts.length - 1 := by
        rw [List.length_dropLast, length_lswap]
      have hnd1 : (((lswap s.ts (s.ts.length - 1) pos).dropLast).map
          Trec.ord).Nodup := by
        rw [List.map_dropLast]
        refine (List.dropLast_sublist _).nodup ?_
        exact ((lswap_perm s.ts (s.ts.length - 1) pos hlast h1).map
          Trec.ord).nodup_iff.mpr h
      split_ifs
      · exact ((siftDown_perm _ pos (by rw [hlen1]; omega)).map
          Trec.ord).nodup_iff.mpr hnd1
      · exact ((siftUpFrom_perm _ pos (by rw [hlen1]; omega)).map
          Trec.ord).nodup_iff.mpr hnd1
  · rw [if_neg h1]
    exact h

/-- The unconditional bookkeeping invariant: counters are positive,
bounded by `order_`, and pairwise distinct. It needs no span hypothesis. -/
theorem runHOps_bound (ops : List HOp) :
    ∀ s : DriverTimers, OrdBound s → NodupOrds s.ts →
      OrdBound (runHOps ops s) ∧ NodupOrds (runHOps ops s).ts := by
  induction ops with
  | nil => intro s h1 h2; exact ⟨h1, h2⟩
  | cons op rest ih =>
    intro s h1 h2
    have hstep : OrdBound (applyHOp op s) ∧ NodupOrds (applyHOp op s).ts := by
      cases op with
      | emplace w =>
        constructor
        · intro a ha
          have hmem := (emplace_perm s w).subset ha
          rcases List.mem_append.mp hmem with h | h
          · have h3 := h1 a h
            refine ⟨h3.1, ?_⟩
            show a.ord ≤ s.order + 1
            have h4 := h3.2
            omega
          · rw [List.mem_singleton] at h
            subst h
            constructor
            · show 0 < s.order + 1
              omega
            · show s.order + 1 ≤ s.order + 1
              omega
        · unfold NodupOrds
          refine ((emplace_perm s w).map Trec.ord).nodup_iff.mpr ?_
          rw [List.map_append]
          rw [List.nodup_append]
          refine ⟨h2, List.nodup_singleton _, ?_⟩
          intro o ho hosing
          rw [List.map_singleton, List.mem_singleton] at hosing
          obtain ⟨a, ha, hao⟩ := List.mem_map.mp ho
          have h5 := h1 a ha
          have h6 : o = s.order + 1 := by rw [hosing]
          omega
      | cull pos =>
        constructor
        · intro a ha
          have := h1 a (hardCull_subset s pos a ha)
          rw [show (applyHOp (HOp.cull pos) s).order = s.order
            from hardCull_order s pos]
          exact this
        · exact hardCull_nodup s pos h2
    exact ih (applyHOp op s) hstep.1 hstep.2

theorem emplace_heapProp (s : DriverTimers) (w : Int)
    (hh : HeapProp s.ts) (hsp : Spanned (s.emplace w).ts) :
    HeapProp (s.emplace w).ts := by
  show HeapProp (siftUp (s.ts ++ [(⟨w, s.order + 1⟩ : Trec)])
    ((s.ts ++ [(⟨w, s.order + 1⟩ : Trec)]).length - 1))
  have hlen : (s.ts ++ [(⟨w, s.order + 1⟩ : Trec)]).length
      = s.ts.length + 1 := by
    rw [List.length_append, List.length_singleton]
  have hpos : (s.ts ++ [(⟨w, s.order + 1⟩ : Trec)]).length - 1
      < (s.ts ++ [(⟨w, s.order + 1⟩ : Trec)]).length := by
    rw [hlen]
    omega
  have hsp1 : Spanned (s.ts ++ [(⟨w, s.order + 1⟩ : Trec)]) :=
    spanned_of_subset (fun x hx => (siftUp_perm _ _ hpos).symm.subset hx) hsp
  refine siftUp_heapProp _ _ hpos hsp1 ⟨?_, ?_⟩
  · intro i hi0 hil hip
    rw [hlen] at hil hip
    have hi : i < s.ts.length := by omega
    have hpar : heapParent i ≤ i := heapParent_le i
    rw [getD_append_left _ _ _ hi, getD_append_left _ _ _ (by omega)]
    exact hh i hi0 hi
  · intro h0 j hj0 hjl hpj
    rw [hlen] at h0 hjl hpj
    exfalso
    simp only [heapParent] at hpj
    omega

def GoodTimers (s : DriverTimers) : Prop :=
  HeapProp s.ts ∧ OrdBound s ∧ NodupOrds s.ts

/-- Heap-property preservation over a whole operation run, given that
every prefix state of the run is spanned. -/
theorem runHOps_heapProp (ops : List HOp) :
    ∀ s : DriverTimers, HeapProp s.ts →
      (∀ n, Spanned (runHOps (ops.take n) s).ts) →
      HeapProp (runHOps ops s).ts := by
  induction ops with
  | nil => intro s h _; exact h
  | cons op rest ih =>
    intro s hh hspan
    have hsp0 : Spanned s.ts := hspan 0
    have hsp1 : Spanned (applyHOp op s).ts := hspan 1
    have hstep : HeapProp (applyHOp op s).ts := by
      cases op with
      | emplace w => exact emplace_heapProp s w hh hsp1
      | cull pos => exact hardCull_heapProp s pos hsp0 hh
    refine ih (applyHOp op s) hstep ?_
    intro n
    exact hspan (n + 1)

theorem runHOps_order_le (ops : List HOp) :
    ∀ s : DriverTimers, (runHOps ops s).order ≤ s.order + ops.length := by
  induction ops with
  | nil =>
    intro s
    exact Nat.le_add_right _ _
  | cons op rest ih =>
    intro s
    have h := ih (applyHOp op s)
    have hstep : (applyHOp op s).order ≤ s.order + 1 := by
      cases op with
      | emplace w =>
        show s.order + 1 ≤ s.order + 1
        omega
      | cull pos =>
        rw [show (applyHOp (HOp.cull pos) s).order = s.order
          from hardCull_order s pos]
        omega
    show (runHOps rest (applyHOp op s)).order ≤ s.order + (op :: rest).length
    rw [List.length_cons]
    omega

/-- Entries bounded by a counter that never exceeded `2^31` are pairwise
in span. -/
theorem spanned_small (s : DriverTimers) (hb : OrdBound s)
    (ho : s.order ≤ halfW) : Spanned s.ts := by
  intro a ha b hb2
  have h1 := hb a ha
  have h2 := hb b hb2
  unfold SpanOk halfW
  unfold halfW at ho
  omega

/-- A run of at most `2^31` operations started on the empty heap never
leaves span: this discharges the span hypothesis of the main theorem for
every realistic run. -/
theorem spanned_of_short (ops : List HOp) (h : ops.length ≤ halfW) :
    ∀ n, Spanned (runHOps (ops.take n) emptyTimers).ts := by
  intro n
  have hb := runHOps_bound (ops.take n) emptyTimers
    (fun a ha => absurd ha (List.not_mem_nil a))
    (by unfold NodupOrds emptyTimers; exact List.nodup_nil)
  refine spanned_small _ hb.1 ?_
  have h1 := runHOps_order_le (ops.take n) emptyTimers
  have h2 : (ops.take n).length ≤ ops.length := by
    rw [List.length_take]
    omega
  have h3 : emptyTimers.order = 0 := rfl
  omega

/-- C7: over every `emplace`/`hard_cull` sequence from the empty heap in
which all live entries stay within `2^31` of each other in insertion
count, the array keeps the 4-ary heap property under the source's
`(when, order)` comparison; the machine comparison agrees with the
lexicographic `(when, unwrapped insertion index)` order on live entries;
and the root — the entry `pop_trigger` fires and removes — is minimal:
no live entry is below it, and every other live entry with the root's
time point was inserted strictly later. Hence pops are in ascending
`(when, order)` order and ties on `when` go to the earlier insertion. -/
theorem c7_heap_pop_order_stable (ops : List HOp)
    (hspan : ∀ n, Spanned (runHOps (ops.take n) emptyTimers).ts) :
    HeapProp (runHOps ops emptyTimers).ts
    ∧ (∀ a ∈ (runHOps ops emptyTimers).ts,
        ∀ b ∈ (runHOps ops emptyTimers).ts,
        (Trec.lt a b = true ↔ keyLt a b))
    ∧ (∀ k, 0 < k → k < (runHOps ops emptyTimers).ts.length →
        ¬ keyLt ((runHOps ops emptyTimers).ts.getD k dflt)
            ((runHOps ops emptyTimers).ts.getD 0 dflt)
        ∧ (((runHOps ops emptyTimers).ts.getD k dflt).when
              = ((runHOps ops emptyTimers).ts.getD 0 dflt).when →
            ((runHOps ops emptyTimers).ts.getD 0 dflt).ord
              < ((runHOps ops emptyTimers).ts.getD k dflt).ord)) := by
  have hfull : Spanned (runHOps ops emptyTimers).ts := by
    have := hspan ops.length
    rw [List.take_length] at this
    exact this
  have hh : HeapProp (runHOps ops emptyTimers).ts :=
    runHOps_heapProp ops emptyTimers
      (by intro i hi0 hil; exact absurd hil (Nat.not_lt_zero i)) hspan
  have hb := runHOps_bound ops emptyTimers
    (fun a ha => absurd ha (List.not_mem_nil a))
    (by unfold NodupOrds emptyTimers; exact List.nodup_nil)
  refine ⟨hh, ?_, ?_⟩
  · intro a ha b hb2
    exact trecLt_iff a b (hfull a ha b hb2)
  · intro k hk0 hkl
    have hmin := heapProp_root_min _ hh k hkl
    refine ⟨hmin, ?_⟩
    intro hwhen
    have hne : ((runHOps ops emptyTimers).ts.getD 0 dflt).ord
        ≠ ((runHOps ops emptyTimers).ts.getD k dflt).ord := by
      intro he
      have hnd := hb.2
      unfold NodupOrds at hnd
      have h0l : 0 < (runHOps ops emptyTimers).ts.length := by omega
      have e0 : (runHOps ops emptyTimers).ts.getD 0 dflt
          = (runHOps ops emptyTimers).ts[0] :=
        List.getD_eq_getElem _ _ h0l
      have ek : (runHOps ops emptyTimers).ts.getD k dflt
          = (runHOps ops emptyTimers).ts[k] :=
        List.getD_eq_getElem _ _ hkl
      rw [e0, ek] at he
      have hm0l : 0 < ((runHOps ops emptyTimers).ts.map Trec.ord).length := by
        rw [List.length_map]; omega
      have hmkl : k < ((runHOps ops emptyTimers).ts.map Trec.ord).length := by
        rw [List.length_map]; omega
      have hm0 : ((runHOps ops emptyTimers).ts.map Trec.ord)[0]
          = ((runHOps ops emptyTimers).ts.map Trec.ord)[k] := by
        rw [List.getElem_map, List.getElem_map]
        exact he
      have := (hnd.getElem_inj_iff).mp hm0
      omega
    unfold keyLt at hmin
    push_neg at hmin
    have := hmin.2 hwhen
    omega

/-- Witness for C7: three insertions, two of them at the same time point
5 and one at time 3; the short-run lemma discharges the span
hypothesis. -/
theorem c7_heap_pop_order_stable_witness :
    (∀ n, Spanned (runHOps
      ([HOp.emplace 5, HOp.emplace 5, HOp.emplace 3].take n)
      emptyTimers).ts)
    ∧ (HeapProp (runHOps [HOp.emplace 5, HOp.emplace 5, HOp.emplace 3]
        emptyTimers).ts
      ∧ (∀ a ∈ (runHOps [HOp.emplace 5, HOp.emplace 5, HOp.emplace 3]
            emptyTimers).ts,
          ∀ b ∈ (runHOps [HOp.emplace 5, HOp.emplace 5, HOp.emplace 3]
            emptyTimers).ts,
          (Trec.lt a b = true ↔ keyLt a b))
      ∧ (∀ k, 0 < k →
          k < (runHOps [HOp.emplace 5, HOp.emplace 5, HOp.emplace 3]
            emptyTimers).ts.length →
          ¬ keyLt ((runHOps [HOp.emplace 5, HOp.emplace 5, HOp.emplace 3]
              emptyTimers).ts.getD k dflt)
              ((runHOps [HOp.emplace 5, HOp.emplace 5, HOp.emplace 3]
              emptyTimers).ts.getD 0 dflt)
          ∧ (((runHOps [HOp.emplace 5, HOp.emplace 5, HOp.emplace 3]
                emptyTimers).ts.getD k dflt).when
                = ((runHOps [HOp.emplace 5, HOp.emplace 5, HOp.emplace 3]
                emptyTimers).ts.getD 0 dflt).when →
              ((runHOps [HOp.emplace 5, HOp.emplace 5, HOp.emplace 3]
                emptyTimers).ts.getD 0 dflt).ord
                < ((runHOps [HOp.emplace 5, HOp.emplace 5, HOp.emplace 3]
                emptyTimers).ts.getD k dflt).ord))) :=
  ⟨spanned_of_short _ (by decide),
   c7_heap_pop_order_stable [HOp.emplace 5, HOp.emplace 5, HOp.emplace 3]
     (spanned_of_short _ (by decide))⟩

end Cotamer
